import Mathlib

/-!
Shallow embedding of the FinSense ingestion-and-retrieval pipeline
(`src/ingestion.py`, `src/retrieval.py`, `src/embeddings.py`).

Modelling conventions:
* A pandas `DataFrame` is a `Table`: a header row of column names plus a
  list of rows of cells (`Val`).  Cell values are `na` (NaN/None/NaT),
  strings, exact rationals (idealizing Python floats), timestamps
  (`date`, encoded as an integer ordered chronologically), and booleans.
* Python string operations (`strip`, `lower`, `replace`, `in`) are
  re-implemented over `List Char` so that every definition reduces in the
  kernel.  `lower`/`strip` are modelled on ASCII (the repository's alias
  lists, keyword lists and test strings are ASCII apart from currency
  symbols, which are case-stable).
* Python `float` arithmetic is idealized as exact rational arithmetic.
  Because `Rat`'s bundled `+`/`-`/`*` do not reduce in this toolchain's
  kernel, arithmetic is routed through `mkRat`, which does.
* External library calls (`pd.to_datetime`, `pd.to_numeric`,
  `float(...)`) are modelled by executable functions covering the value
  shapes the pipeline produces; `pd.to_datetime` on strings is modelled
  for ISO `YYYY-MM-DD` inputs (the liberal remainder of pandas' parser is
  irrelevant to the verified properties, which never depend on *which*
  strings parse as dates).
* pandas raises when a duplicated column label makes `df[col]` a
  DataFrame and a Series-only operation (`.dtype`, `.str`, `Series.apply`,
  `pd.to_datetime(DataFrame)`) is applied to it; the model turns exactly
  those program points into `Except.error`.
-/

namespace FinSense

/-! ## Python-style primitive operations -/

/-- ASCII lower-casing, modelling `str.lower` on the character sets used
by the pipeline (alias lists, keyword lists, denylists are ASCII). -/
def pyLowerChar (c : Char) : Char :=
  if 65 ≤ c.toNat && c.toNat ≤ 90 then Char.ofNat (c.toNat + 32) else c

def pyLowerList (l : List Char) : List Char := l.map pyLowerChar

def pyLower (s : String) : String := String.mk (pyLowerList s.data)

/-- ASCII whitespace, modelling the characters `str.strip` removes. -/
def pyIsSpace (c : Char) : Bool :=
  c = ' ' || c = '\t' || c = '\n' || c = '\r' || c = '\x0b' || c = '\x0c'

def pyStripList (l : List Char) : List Char :=
  ((l.dropWhile pyIsSpace).reverse.dropWhile pyIsSpace).reverse

def pyStrip (s : String) : String := String.mk (pyStripList s.data)

/-- Python `pat in s` (substring containment) over character lists. -/
def containsSub (hay pat : List Char) : Bool :=
  match hay with
  | [] => pat.isEmpty
  | c :: t => pat.isPrefixOf (c :: t) || containsSub t pat

/-- Python `pat in s` on strings. -/
def strContains (s pat : String) : Bool := containsSub s.data pat.data

/-- Python `s.replace(pat, rep)`: leftmost, non-overlapping.  Fuel-based
structural recursion (each step consumes at least one character, so fuel
`l.length` is exact); the guard on an empty pattern is never exercised:
every pattern the source passes to `replace` is non-empty. -/
def replaceListAux : Nat → List Char → List Char → List Char → List Char
  | 0, l, _, _ => l
  | fuel + 1, l, pat, rep =>
    match l with
    | [] => []
    | c :: rest =>
      if pat.isPrefixOf (c :: rest) && !pat.isEmpty then
        rep ++ replaceListAux fuel ((c :: rest).drop pat.length) pat rep
      else
        c :: replaceListAux fuel rest pat rep

def replaceList (l pat rep : List Char) : List Char :=
  replaceListAux l.length l pat rep

def strReplace (s pat rep : String) : String :=
  String.mk (replaceList s.data pat.data rep.data)

def splitOnChar (sep : Char) (l : List Char) : List (List Char) :=
  l.foldr (fun c acc =>
    if c = sep then [] :: acc
    else match acc with
      | [] => [[c]]
      | h :: t => (c :: h) :: t) [[]]

def digitsToNat (l : List Char) : Nat :=
  l.foldl (fun a c => a * 10 + (c.toNat - 48)) 0

def allDigits (l : List Char) : Bool := l.all Char.isDigit

/-! ## Kernel-reducible rational arithmetic (idealized Python floats) -/

def ratNeg (a : Rat) : Rat := mkRat (-a.num) a.den

def ratAdd (a b : Rat) : Rat :=
  mkRat (a.num * (b.den : Int) + b.num * (a.den : Int)) (a.den * b.den)

def ratSub (a b : Rat) : Rat := ratAdd a (ratNeg b)

def ratDivNat (a : Rat) (n : Nat) : Rat := mkRat a.num (a.den * n)

/-- `q < 0`, decided on the normalized numerator. -/
def ratIsNeg (a : Rat) : Bool := a.num < 0

/-- Python `float("<decimal literal>")`: optional sign, digits with at
most one decimal point, at least one digit.  (`inf`/`nan`/scientific
notation are outside the model; every string this is applied to in the
pipeline has already had its letters stripped or is a decimal literal.) -/
def pyFloat? (s : String) : Option Rat :=
  let (sgn, body) :=
    match s.data with
    | '-' :: r => ((-1 : Int), r)
    | '+' :: r => ((1 : Int), r)
    | r => ((1 : Int), r)
  match splitOnChar '.' body with
  | [ip] =>
    if ip ≠ [] && allDigits ip then some (mkRat (sgn * (digitsToNat ip : Int)) 1)
    else none
  | [ip, fp] =>
    if (ip ≠ [] || fp ≠ []) && allDigits ip && allDigits fp then
      some (mkRat (sgn * ((digitsToNat ip * 10 ^ fp.length + digitsToNat fp : Nat) : Int))
        (10 ^ fp.length))
    else none
  | _ => none

instance {ε α : Type} [DecidableEq ε] [DecidableEq α] : DecidableEq (Except ε α) :=
  fun a b =>
    match a, b with
    | .ok x, .ok y => if h : x = y then .isTrue (by rw [h]) else .isFalse (by simp [h])
    | .error x, .error y => if h : x = y then .isTrue (by rw [h]) else .isFalse (by simp [h])
    | .ok _, .error _ => .isFalse (by simp)
    | .error _, .ok _ => .isFalse (by simp)

/-! ## Cell values and tables -/

inductive Val where
  | na : Val
  | str : String → Val
  | num : Rat → Val
  | date : Int → Val
  | bool : Bool → Val
deriving DecidableEq, Repr

def Val.isNa : Val → Bool
  | .na => true
  | _ => false

/-- Fractional digits of `num/den` (fuel-bounded; Python floats always
have terminating decimal expansions, so the bound is never hit on values
the pipeline produces). -/
def decDigits : Nat → Nat → Nat → String
  | 0, _, _ => ""
  | fuel + 1, num, den =>
    if num = 0 then ""
    else (toString (num * 10 / den)) ++ decDigits fuel (num * 10 % den) den

/-- Python `str(...)` on a float, idealized on exact rationals (`str` of
a float prints its shortest decimal form; the pipeline only ever inspects
these strings for danger substrings or re-parses them numerically). -/
def ratRepr (q : Rat) : String :=
  let sign := if q.num < 0 then "-" else ""
  let n := q.num.natAbs
  if n % q.den = 0 then sign ++ toString (n / q.den) ++ ".0"
  else sign ++ toString (n / q.den) ++ "." ++ decDigits 40 (n % q.den) q.den

/-- Python `str(...)` of a cell value.  `str` of a Timestamp is written
with its integer code; none of the verified properties inspect it. -/
def pyStr : Val → String
  | .na => "nan"
  | .str s => s
  | .num q => ratRepr q
  | .date d => toString d
  | .bool b => if b then "True" else "False"

/-- A pandas DataFrame: named columns over rows of cells.  Rows are
well-formed when they have one cell per header entry. -/
structure Table where
  header : List String
  rows : List (List Val)
deriving DecidableEq, Repr

def Table.Wf (t : Table) : Prop :=
  ∀ r ∈ t.rows, r.length = t.header.length

instance (t : Table) : Decidable t.Wf := by
  unfold Table.Wf; infer_instance

/-- Indices (counted from `off`) of all entries equal to `name`. -/
def colIdxsFrom (off : Nat) (hdr : List String) (name : String) : List Nat :=
  match hdr with
  | [] => []
  | h :: rest =>
    if h = name then off :: colIdxsFrom (off + 1) rest name
    else colIdxsFrom (off + 1) rest name

/-- Indices of all columns carrying a given label (pandas allows
duplicate labels; `df[name]` is a Series only when this is a singleton). -/
def colIdxs (hdr : List String) (name : String) : List Nat :=
  colIdxsFrom 0 hdr name

def Table.colVals (t : Table) (i : Nat) : List Val :=
  t.rows.map (fun r => r.getD i .na)

/-- `df[name]` where a Series is required: errors when the label is
missing (KeyError) or duplicated (the selection is a DataFrame and the
subsequent Series-only operation raises). -/
def Table.selCol (t : Table) (name : String) : Except String (List Val) :=
  match colIdxs t.header name with
  | [i] => .ok (t.colVals i)
  | [] => .error ("KeyError: " ++ name)
  | _ => .error ("duplicate column label: " ++ name)

def removeIdxsFrom {α : Type} (off : Nat) (l : List α) (idxs : List Nat) : List α :=
  match l with
  | [] => []
  | x :: rest =>
    if idxs.contains off then removeIdxsFrom (off + 1) rest idxs
    else x :: removeIdxsFrom (off + 1) rest idxs

/-- Drop the entries sitting at the given positions. -/
def removeIdxs {α : Type} (l : List α) (idxs : List Nat) : List α :=
  removeIdxsFrom 0 l idxs

def setIdxsFrom {α : Type} (off : Nat) (l : List α) (idxs : List Nat) (v : α) : List α :=
  match l with
  | [] => []
  | x :: rest =>
    (if idxs.contains off then v else x) :: setIdxsFrom (off + 1) rest idxs v

/-- Overwrite the entries sitting at the given positions. -/
def setIdxs {α : Type} (l : List α) (idxs : List Nat) (v : α) : List α :=
  setIdxsFrom 0 l idxs v

/-! ## ingestion.py: column-name normalization and safety validator -/

/-- `_normalize_column_names`: `str(c).strip().lower().replace(' ', '_')`. -/
def normName (c : String) : String :=
  strReplace (pyLower (pyStrip c)) " " "_"

def normalizeColumnNames (t : Table) : Table :=
  { t with header := t.header.map normName }

/-- The effect of `.replace(' ', '_')` on one character (the pattern is
a single character, so the replacement acts pointwise). -/
def underscoreSpaceChar (c : Char) : Char := if c = ' ' then '_' else c

/-- `normName` at the character-list level. -/
def normChars (l : List Char) : List Char :=
  (pyLowerList (pyStripList l)).map underscoreSpaceChar

def dangerousPatterns : List String :=
  ["javascript:", "<script", "onerror=", "onclick=",
   "onload=", "eval(", "exec(", "__import__", "system("]

def dangerousContent : List String :=
  ["<script", "javascript:", "onerror=", "onclick=",
   "onload=", "<iframe", "eval(", "exec("]

def cellIsDangerous (v : Val) : Bool :=
  !v.isNa && dangerousContent.any (fun d => strContains (pyLower (pyStr v)) d)

/-- `_is_safe_csv`.  The source scans the 10-row sample column-by-column;
the scan returns a constant message, so the row-by-row `any` below yields
the same `(ok, reason)` pair. -/
def isSafeCsv (t : Table) : Bool × String :=
  if t.rows.length = 0 then (false, "CSV file is empty")
  else if t.rows.length > 100000 then (false, "CSV file too large (max 100,000 rows)")
  else if t.header.length > 50 then (false, "Too many columns (max 50)")
  else if t.header.length < 2 then (false, "Too few columns (minimum 2 required)")
  else
    match t.header.find? (fun c => dangerousPatterns.any (fun d => strContains (pyLower c) d)) with
    | some c => (false, "Potentially dangerous column name: " ++ c)
    | none =>
      if (t.rows.take 10).any (fun r => r.any cellIsDangerous) then
        (false, "Potentially malicious content detected")
      else (true, "")

/-! ## ingestion.py: column inference -/

def dateAliases : List String :=
  ["date", "transaction_date", "trans_date", "posting_date",
   "value_date", "effective_date", "statement_date", "process_date",
   "date_posted", "transaction_dt", "trans_dt"]

/-- Model of `pd.to_datetime(..., errors='coerce')` on a string cell,
covering ISO `YYYY-MM-DD`; the timestamp is encoded as the integer
`y*10000 + m*100 + d`, which orders chronologically. -/
def parseDateStr (s : String) : Option Int :=
  match splitOnChar '-' (pyStrip s).data with
  | [y, m, d] =>
    if y ≠ [] && m ≠ [] && d ≠ [] && allDigits y && allDigits m && allDigits d then
      let mv := digitsToNat m
      let dv := digitsToNat d
      if 1 ≤ mv && mv ≤ 12 && 1 ≤ dv && dv ≤ 31 then
        some ((digitsToNat y : Int) * 10000 + mv * 100 + dv)
      else none
    else none
  | _ => none

/-- `pd.to_datetime(..., errors='coerce')` cellwise: timestamps pass
through, strings are parsed, everything else coerces to `NaT`.  (pandas'
epoch interpretation of raw numbers is outside the model; no verified
property depends on which non-timestamp cells parse.) -/
def pdToDatetime : Val → Val
  | .date d => .date d
  | .str s =>
    match parseDateStr s with
    | some d => .date d
    | none => .na
  | _ => .na

/-- `series.dtype == 'object'`: the column holds at least one string
(numeric / datetime / bool / all-NaN columns have non-object dtypes). -/
def isObjectDtype (col : List Val) : Bool :=
  col.any (fun v => match v with | .str _ => true | _ => false)

/-- The `≥ 80%` sample checks compare an integer count against
`len * 0.8`; for sample sizes ≤ 10 the float product is exact enough
that the comparison coincides with the rational one, i.e. with
`10 * count ≥ 8 * len`. -/
def dateSniffOk (col : List Val) : Bool :=
  let sample := (col.filter (fun v => !v.isNa)).take 5
  sample.length > 0 &&
    decide (10 * (sample.countP (fun v => !(pdToDatetime v).isNa)) ≥ 8 * sample.length)

def inferDateLoop (t : Table) : List String → Except String (Option String)
  | [] => .ok none
  | c :: rest =>
    match colIdxs t.header c with
    | [i] =>
      if isObjectDtype (t.colVals i) then
        if dateSniffOk (t.colVals i) then .ok (some c) else inferDateLoop t rest
      else inferDateLoop t rest
    | _ => .error ("df[col].dtype on a duplicated label raises: " ++ c)

/-- `_infer_date_column`: alias match first (alias-list order), else the
first object-dtype column whose 5-row sample is ≥ 80% date-parseable.
`df[col].dtype` sits outside the `try`, so a duplicated label raises. -/
def inferDateColumn (t : Table) : Except String (Option String) :=
  match dateAliases.find? (fun a => t.header.contains a) with
  | some a => .ok (some a)
  | none => inferDateLoop t t.header

def amountAliases : List String :=
  ["amount", "transaction_amount", "trans_amount", "value",
   "debit", "credit", "debit_amount", "credit_amount",
   "withdrawal", "deposit", "payment", "charge",
   "withdrawals_and_other_subtractions", "deposits_and_other_additions"]

def stripNonNumericChars (s : String) : String :=
  String.mk (s.data.filter (fun c => c.isDigit || c = '.' || c = '-'))

/-- One cell of the amount content-sniff: `str(v)` with every character
but digits, `.`, `-` stripped, then `pd.to_numeric(..., errors='coerce')`
(stripping removes any exponent letter, so the decimal parser is exact
here). -/
def sniffNumericCell (v : Val) : Bool :=
  (pyFloat? (stripNonNumericChars (pyStr v))).isSome

def amountSniffOk (col : List Val) : Bool :=
  let sample := (col.filter (fun v => !v.isNa)).take 10
  sample.length > 0 &&
    decide (10 * (sample.countP sniffNumericCell) ≥ 8 * sample.length)

def inferAmountLoop (t : Table) : List String → Option String
  | [] => none
  | c :: rest =>
    if !(["date", "transaction_date"].contains c) then
      match colIdxs t.header c with
      | [i] => if amountSniffOk (t.colVals i) then some c else inferAmountLoop t rest
      | _ => inferAmountLoop t rest
    else inferAmountLoop t rest

/-- `_infer_amount_column`: alias match first, else the first column
other than `date`/`transaction_date` whose 10-row sample is ≥ 80%
numeric after stripping.  Here the whole sniff body sits inside the
`try`, so a duplicated label (whose selection has no `.str` accessor)
is skipped, not raised. -/
def inferAmountColumn (t : Table) : Option String :=
  match amountAliases.find? (fun a => t.header.contains a) with
  | some a => some a
  | none => inferAmountLoop t t.header

def merchantAliases : List String :=
  ["merchant", "description", "transaction_description", "trans_description",
   "vendor", "payee", "store", "shop", "business", "location",
   "merchant_name", "store_name", "transaction_details", "details",
   "desc", "transaction", "name", "counterparty", "beneficiary",
   "account_name"]

def inferMerchantLoop (t : Table) : List String → Except String (Option String)
  | [] => .ok none
  | c :: rest =>
    if !(["date", "amount"].contains c) then
      match colIdxs t.header c with
      | [i] =>
        if isObjectDtype (t.colVals i) then .ok (some c) else inferMerchantLoop t rest
      | _ => .error ("df[col].dtype on a duplicated label raises: " ++ c)
    else inferMerchantLoop t rest

/-- `_infer_merchant_column`: alias match first, else the first
object-dtype column that is not `date`/`amount`. -/
def inferMerchantColumn (t : Table) : Except String (Option String) :=
  match merchantAliases.find? (fun a => t.header.contains a) with
  | some a => .ok (some a)
  | none => inferMerchantLoop t t.header

/-! ## ingestion.py: amount cleaning and debit/credit merge -/

def naStrings : List String := ["na", "n/a", "null", "none"]

def currencyTokens : List String :=
  ["$", "₵", "gh₵", "ghs", "usd", "ghc", "eur", "€", "£", "gbp", ",", " "]

/-- `clean_value` on a string: strip; `na`-words to missing; a fully
parenthesized value becomes negative; lower-case and delete currency
symbols/codes, thousands separators and spaces; `float(...)`; on
failure strip every character but digits, `.`, `-` and retry, mapping a
bare `""`/`"."`/`"-"` to missing. -/
def cleanStr (s0 : String) : Option Rat :=
  let s := pyStrip s0
  if s = "" || naStrings.contains (pyLower s) then none
  else
    let d := s.data
    let d1 := if d.head? = some '(' && d.getLast? = some ')' then
        '-' :: (d.drop 1).dropLast
      else d
    let s2 := currencyTokens.foldl (fun acc tok => strReplace (pyLower acc) tok "") (String.mk d1)
    match pyFloat? s2 with
    | some q => some q
    | none =>
      let s3 := stripNonNumericChars s2
      if s3 = "" || s3 = "." || s3 = "-" then none else pyFloat? s3

/-- `clean_value` cellwise.  On a float, `str(x)` round-trips through
the cleaning unchanged (`float(str(x)) == x`); on a Timestamp, `str(x)`
(`"YYYY-MM-DD HH:MM:SS"`) fails both numeric parses, yielding missing. -/
def cleanValue : Val → Option Rat
  | .na => none
  | .num q => some q
  | .str s => cleanStr s
  | .date _ => none
  | .bool b => cleanStr (pyStr (.bool b))

def cleanedVal (v : Val) : Val :=
  match cleanValue v with
  | some q => .num q
  | none => .na

def cleanAmountColumn (col : List Val) : List Val := col.map cleanedVal

/-- `_merge_debit_credit`: when both columns are present, clean each,
set `amount = credit.fillna(0) - debit.fillna(0)` (replacing an existing
`amount` column in place, else appending one), and drop both source
columns.  A duplicated `debit`/`credit` label would make the cleaning
`apply` raise. -/
def mergeDebitCredit (t : Table) : Except String Table :=
  if t.header.contains "debit" && t.header.contains "credit" then
    match colIdxs t.header "debit", colIdxs t.header "credit" with
    | [di], [ci] =>
      let amtIdxs := colIdxs t.header "amount"
      let newRow := fun (r : List Val) =>
        let dv := (cleanValue (r.getD di .na)).getD 0
        let cv := (cleanValue (r.getD ci .na)).getD 0
        let amt : Val := .num (ratSub cv dv)
        let r1 := if amtIdxs.isEmpty then r ++ [amt] else setIdxs r amtIdxs amt
        removeIdxs r1 [di, ci]
      let hdr1 := if amtIdxs.isEmpty then t.header ++ ["amount"] else t.header
      .ok { header := removeIdxs hdr1 [di, ci], rows := t.rows.map newRow }
    | _, _ => .error "Series.apply on a duplicated debit/credit label raises"
  else .ok t

/-! ## ingestion.py: the normalizer pipeline and the structural pre-check -/

def renameCol (t : Table) (old new : String) : Table :=
  { t with header := t.header.map (fun h => if h = old then new else h) }

def Table.uniqueIdx (t : Table) (name msg : String) : Except String Nat :=
  match colIdxs t.header name with
  | [i] => .ok i
  | _ => .error msg

def Table.mapCol (t : Table) (i : Nat) (f : Val → Val) : Table :=
  { t with rows := t.rows.map (fun r => setIdxs r [i] (f (r.getD i .na))) }

/-- The merchant normalization chain:
`fillna('unknown_merchant').astype(str).str.strip().str.lower()` then a
value-level `replace('', 'unknown_merchant')`. -/
def normMerchantVal (v : Val) : Val :=
  let v1 := if v.isNa then Val.str "unknown_merchant" else v
  let s := pyLower (pyStrip (pyStr v1))
  .str (if s = "" then "unknown_merchant" else s)

/-- `pd.to_numeric(..., errors='coerce')` on the already-cleaned amount
column, which holds only floats and missing values. -/
def toNumericVal : Val → Val
  | .num q => .num q
  | _ => .na

def rowAmount (r : List Val) (ai : Nat) : Rat :=
  match r.getD ai .na with
  | .num q => q
  | _ => 0

def rowDateCode (r : List Val) (di : Nat) : Int :=
  match r.getD di .na with
  | .date d => d
  | _ => 0

def dateLe (di : Nat) (r1 r2 : List Val) : Bool :=
  rowDateCode r1 di ≤ rowDateCode r2 di

instance (di : Nat) : IsTotal (List Val) (fun r1 r2 => dateLe di r1 r2 = true) :=
  ⟨fun a b => by
    unfold dateLe
    rcases Int.le_total (rowDateCode a di) (rowDateCode b di) with h | h
    · exact Or.inl (by simpa using h)
    · exact Or.inr (by simpa using h)⟩

instance (di : Nat) : IsTrans (List Val) (fun r1 r2 => dateLe di r1 r2 = true) :=
  ⟨fun a b c hab hbc => by
    unfold dateLe at hab hbc ⊢
    simp only [decide_eq_true_eq] at hab hbc ⊢
    omega⟩

/-- `df['is_suspicious'] = df['amount'] < 0`: replaces an existing
`is_suspicious` column in place, else appends one. -/
def addSuspicious (t : Table) (ai : Nat) : Table :=
  let idxs := colIdxs t.header "is_suspicious"
  if idxs.isEmpty then
    { header := t.header ++ ["is_suspicious"],
      rows := t.rows.map (fun r => r ++ [Val.bool (ratIsNeg (rowAmount r ai))]) }
  else
    { t with
      rows := t.rows.map (fun r => setIdxs r idxs (Val.bool (ratIsNeg (rowAmount r ai)))) }

structure Summary where
  total_rows : Nat
  valid_rows : Nat
  invalid_rows : Nat
  total_transactions : Nat
  total_amount : Rat
  avg_amount : Rat
  suspicious_count : Nat
  date_range_start : Option Int
  date_range_end : Option Int
deriving DecidableEq, Repr

def minDate : List Int → Option Int
  | [] => none
  | h :: tl => some (tl.foldl min h)

def maxDate : List Int → Option Int
  | [] => none
  | h :: tl => some (tl.foldl max h)

/-- `parse_and_clean_csv`, lines 181-210: safety gate, header
normalization, debit/credit merge, date/amount inference (hard failures
when unresolved), renames to canonical names, and merchant resolution
(placeholder column when unresolved). -/
def resolveColumns (t0 : Table) : Except String Table := do
  let (ok, msg) := isSafeCsv t0
  if !ok then throw ("Security validation failed: " ++ msg)
  let t1 := normalizeColumnNames t0
  let t2 ← mergeDebitCredit t1
  let dateCol? ← inferDateColumn t2
  let amountCol? := inferAmountColumn t2
  match dateCol?, amountCol? with
  | none, _ => throw "Could not identify date column. Please ensure your CSV has a date field."
  | _, none =>
    throw "Could not identify amount column. Please ensure your CSV has a transaction amount field."
  | some dateCol, some amountCol =>
    let t3 := if dateCol ≠ "date" then renameCol t2 dateCol "date" else t2
    let t4 := if amountCol ≠ "amount" then renameCol t3 amountCol "amount" else t3
    let merchantCol? ← inferMerchantColumn t4
    let t5 := match merchantCol? with
      | some mc => if mc ≠ "merchant" then renameCol t4 mc "merchant" else t4
      | none =>
        if !(t4.header.contains "merchant") then
          { header := t4.header ++ ["merchant"],
            rows := t4.rows.map (fun r => r ++ [Val.str "unknown_merchant"]) }
        else t4
    .ok t5

/-- `parse_and_clean_csv`, lines 212-223: the three cellwise column
transforms (each raising if its canonical label is duplicated), returning
the transformed table with the date and amount column positions. -/
def cleanColumns (t5 : Table) : Except String (Table × Nat × Nat) := do
  let di ← t5.uniqueIdx "date" "pd.to_datetime on a duplicated date label raises"
  let t6 := t5.mapCol di pdToDatetime
  let ai ← t6.uniqueIdx "amount" "Series.apply on a duplicated amount label raises"
  let t7 := t6.mapCol ai cleanedVal
  let mi ← t7.uniqueIdx "merchant" "str accessor on a duplicated merchant label raises"
  let t8 := t7.mapCol mi normMerchantVal
  .ok (t8, di, ai)

/-- `parse_and_clean_csv`, lines 225-262: drop rows with missing date or
amount, numeric coercion, the suspicious flag, the date sort, and the
summary.  `sort_values` uses numpy quicksort, which is unstable, so an
insertion sort here is an idealization: claim-level conclusions about
the row order are therefore stated only up to permutation (and
date-sortedness), never as exact sequence equality across runs. -/
def finalizeRows (originalCount : Nat) (t8 : Table) (di ai : Nat) : Table × Summary :=
  let rows9 := t8.rows.filter (fun r => !(r.getD di Val.na).isNa && !(r.getD ai Val.na).isNa)
  let rows10 := rows9.map (fun r => setIdxs r [ai] (toNumericVal (r.getD ai Val.na)))
  let rows11 := rows10.filter (fun r => !(r.getD ai Val.na).isNa)
  let t12 := addSuspicious { header := t8.header, rows := rows11 } ai
  let finalRows := t12.rows.insertionSort (fun r1 r2 => dateLe di r1 r2 = true)
  let summ : Summary :=
    if finalRows.length = 0 then
      { total_rows := originalCount, valid_rows := 0, invalid_rows := originalCount,
        total_transactions := 0, total_amount := 0, avg_amount := 0,
        suspicious_count := 0, date_range_start := none, date_range_end := none }
    else
      let total := (finalRows.map (fun r => rowAmount r ai)).foldl ratAdd 0
      { total_rows := originalCount, valid_rows := finalRows.length,
        invalid_rows := originalCount - finalRows.length,
        total_transactions := finalRows.length,
        total_amount := total,
        avg_amount := ratDivNat total finalRows.length,
        suspicious_count := finalRows.countP (fun r => ratIsNeg (rowAmount r ai)),
        date_range_start := minDate (finalRows.map (fun r => rowDateCode r di)),
        date_range_end := maxDate (finalRows.map (fun r => rowDateCode r di)) }
  ({ header := t12.header, rows := finalRows }, summ)

/-- `parse_and_clean_csv` (the three stages in source order;
`original_count` is taken before any row is dropped — header
normalization leaves the rows untouched, so it equals the input row
count). -/
def parseAndCleanCsv (t0 : Table) : Except String (Table × Summary) := do
  let t5 ← resolveColumns t0
  let (t8, di, ai) ← cleanColumns t5
  .ok (finalizeRows t0.rows.length t8 di ai)

/-- `validate_csv_structure`. -/
def validateCsvStructure (t0 : Table) : Except String (Bool × String) := do
  let (ok, msg) := isSafeCsv t0
  if !ok then return (false, msg)
  let t1 := normalizeColumnNames t0
  let t2 ← mergeDebitCredit t1
  let d? ← inferDateColumn t2
  let a? := inferAmountColumn t2
  if d?.isNone then
    return (false, "Could not identify a date column. Please ensure your CSV contains transaction dates.")
  if a?.isNone then
    return (false, "Could not identify an amount column. Please ensure your CSV contains transaction amounts.")
  return (true, "")

/-! ## retrieval.py: the query classifier and retrieval router -/

def broadKeywords : List String :=
  ["story", "tell me", "narrative", "summary", "overview", "describe",
   "pattern", "trend", "habit", "behavior", "insight", "analyze",
   "total", "all", "entire", "overall", "complete", "everything",
   "average", "mean", "count", "how many"]

/-- `RetrieverService._is_broad_query`. -/
def isBroadQuery (question : String) : Bool :=
  let q := pyLower question
  broadKeywords.any (fun k => strContains q k)

def noTableKeywords : List String := ["story", "tell me", "narrative", "describe"]

/-- `RetrieverService._should_show_display_table`. -/
def shouldShowDisplayTable (question : String) : Bool :=
  let q := pyLower question
  !(noTableKeywords.any (fun k => strContains q k))

def wholeDatasetKeywords : List String := ["all", "total", "entire", "overall", "everything"]

/-- `row.get(name, default)`: the cell under a label, or the default when
the label is absent.  (On a duplicated label pandas returns a sub-Series;
the model takes the first occurrence — the retrieval theorems assume the
canonical labels are unique, which normalization guarantees.) -/
def rowGet (t : Table) (r : List Val) (name : String) (dflt : Val) : Val :=
  match colIdxs t.header name with
  | i :: _ => r.getD i dflt
  | [] => dflt

/-- `RetrieverService._extract_merchant_filter`: the first row whose
(lower-cased, stringified) merchant is longer than 2 characters and
occurs in the lower-cased question. -/
def extractMerchantFilter (df : Table) (question : String) : Option String :=
  let q := pyLower question
  df.rows.findSome? (fun r =>
    let merchant := pyLower (pyStr (rowGet df r "merchant" (.str "")))
    if merchant ≠ "" && decide (merchant.length > 2) && strContains q merchant then
      some merchant
    else none)

/-- `RetrieverService._get_extra_columns`. -/
def getExtraColumns (df : Table) : List String :=
  df.header.filter (fun c => !(["date", "merchant", "amount", "is_suspicious"].contains c))

/-- `df[names]` for a list of labels (pandas selects every column
matching each requested label, in request order). -/
def projectCols (df : Table) (names : List String) : Table :=
  let idxs := (names.map (fun n => colIdxs df.header n)).flatten
  { header := idxs.map (fun i => df.header.getD i ""),
    rows := df.rows.map (fun r => idxs.map (fun i => r.getD i Val.na)) }

/-- The metacharacters of Python regular expressions.  `.str.contains`
treats its pattern as a regex; regex search coincides with plain
substring search exactly when the pattern avoids these characters. -/
def regexMetaChars : List Char :=
  ['.', '^', '$', '*', '+', '?', '\x7b', '\x7d', '[', ']', '\\', '|', '(', ')']

/-- A string that contains no regex metacharacter, so that using it as a
`.str.contains` pattern is plain substring search. -/
def regexFree (s : String) : Bool := s.data.all (fun c => !(regexMetaChars.contains c))

/-- The mask `df['merchant'].str.lower().str.contains(pat, na=False)` on
one cell: non-string cells give NaN, which `na=False` maps to False.
pandas treats `pat` as a regular expression; on patterns free of regex
metacharacters this coincides with substring containment (the retrieval
theorems restrict merchant strings accordingly). -/
def merchantCellMatches (pat : String) : Val → Bool
  | .str s => strContains (pyLower s) pat
  | _ => false

/-- `RetrieverService._filter_display_data`. -/
def filterDisplayData (df : Table) (question : String) : Table :=
  let q := pyLower question
  let displayCols := ["date", "merchant", "amount"] ++
    (getExtraColumns df).filter (fun c => df.header.contains c)
  match extractMerchantFilter df question with
  | some m =>
    projectCols
      { df with rows := df.rows.filter (fun r => merchantCellMatches m (rowGet df r "merchant" .na)) }
      displayCols
  | none =>
    if wholeDatasetKeywords.any (fun w => strContains q w) then projectCols df displayCols
    else { header := [], rows := [] }

/-- A document as produced by the retrieval router: page text plus the
three mandatory metadata fields.  (Extra pass-through metadata keys are
outside the model; no verified property reads them.) -/
structure Doc where
  text : String
  date : Val
  merchant : Val
  amount : Val
deriving DecidableEq, Repr

/-- A raw search hit from the external vector index, whose metadata may
be partial. -/
structure RawDoc where
  text : String
  date? : Option Val
  merchant? : Option Val
  amount? : Option Val
deriving DecidableEq, Repr

/-- The external FAISS store, abstracted to its retrieval capability:
a question produces an ordered hit list. -/
def VStore : Type := String → List RawDoc

/-- What the filesystem holds at a persistence path. -/
inductive DirState where
  | missing : DirState
  | emptyDir : DirState
  | corrupt : DirState
  | holds : VStore → DirState

def DirState.hasIndex : DirState → Bool
  | .holds _ => true
  | _ => false

/-- The mutable state of `EmbeddingManager` that retrieval reads:
`vector_store` (None until an index is built or loaded) and the
`persist_directory` attribute probed via `getattr` (never set anywhere in
this repository, hence `none` in every reachable configuration). -/
structure EmbeddingManagerState where
  vectorStore : Option VStore
  persistDirectory : Option String

/-- `EmbeddingManager.load_vector_store`: missing directory raises
FileNotFoundError, an empty directory raises, and a failing
`FAISS.load_local` raises with the path and cause. -/
def loadVectorStore (disk : String → DirState) (path : String) : Except String VStore :=
  match disk path with
  | .missing => .error ("Vector store not found: " ++ path)
  | .emptyDir => .error ("Vector store directory empty or corrupt: " ++ path)
  | .corrupt => .error ("Failed to load vector store from " ++ path)
  | .holds vs => .ok vs

/-- `RetrieverService.get_retriever`. -/
def getRetriever (em : EmbeddingManagerState) (disk : String → DirState) :
    Except String VStore :=
  match em.vectorStore with
  | some vs => .ok vs
  | none =>
    match em.persistDirectory with
    | some p => loadVectorStore disk p
    | none => .error "Vector store not initialized"

/-- `float(row.get('amount', 0.0))` on a normalized table, where the
amount cell is a float (other shapes are outside the verified
properties). -/
def floatOfVal : Val → Rat
  | .num q => q
  | .bool b => if b then 1 else 0
  | _ => 0

/-- One broad-branch document built from a transaction row.  The
reference-number prefix of the page text is elided (no verified property
reads the text). -/
def rowDoc (df : Table) (r : List Val) : Doc :=
  let merchant := pyStr (rowGet df r "merchant" (.str ""))
  let amount := floatOfVal (rowGet df r "amount" (.num 0))
  let date := pyStr (rowGet df r "date" (.str ""))
  { text := merchant ++ " - $" ++ ratRepr amount ++ " on " ++ date,
    date := .str date, merchant := .str merchant, amount := .num amount }

/-- The synthetic summary document prepended on broad queries (its page
text is abridged: no verified property reads it). -/
def summaryDoc (s : Summary) : Doc :=
  { text := "Dataset Summary: " ++ toString s.total_transactions ++ " transactions",
    date := .str "summary", merchant := .str "SUMMARY", amount := .num s.total_amount }

/-- The narrow-branch metadata re-wrap: mandatory fields defaulted to
`0.0` / `""` / `""`. -/
def safeDoc (d : RawDoc) : Doc :=
  { text := d.text,
    amount := d.amount?.getD (.num 0),
    date := d.date?.getD (.str ""),
    merchant := d.merchant?.getD (.str "") }

/-- `pd.DataFrame(display_data)` in the narrow branch (extra metadata
keys elided, as above); an empty hit list gives an empty frame. -/
def narrowDisplay (docs : List Doc) : Table :=
  match docs with
  | [] => { header := [], rows := [] }
  | _ =>
    { header := ["date", "merchant", "amount"],
      rows := docs.map (fun d => [d.date, d.merchant, d.amount]) }

/-- `RetrieverService.retrieve`. -/
def retrieve (em : EmbeddingManagerState) (disk : String → DirState)
    (df : Table) (s : Summary) (question : String) :
    Except String (List Doc × Table) :=
  let is_broad := isBroadQuery question
  let show_table := shouldShowDisplayTable question
  if is_broad then
    let safeDocs := summaryDoc s :: df.rows.map (rowDoc df)
    let dfDisplay := if show_table then filterDisplayData df question
      else { header := [], rows := [] }
    .ok (safeDocs, dfDisplay)
  else do
    let vs ← getRetriever em disk
    let docs := (vs question).map safeDoc
    let dfDisplay := if show_table then narrowDisplay docs
      else { header := [], rows := [] }
    .ok (docs, dfDisplay)

/-! ## embeddings.py: `save_vector_store` -/

/-- What a directory path can hold during a save: nothing, an incomplete
directory (created but not yet holding a complete index), or a complete
index artifact (identified by a tag). -/
inductive ArtifactState where
  | absent : ArtifactState
  | incomplete : ArtifactState
  | complete : Nat → ArtifactState
deriving DecidableEq, Repr

/-- The filesystem as `save_vector_store` sees it: the canonical path and
its `path + ".tmp"` sibling. -/
structure SaveFS where
  canonical : ArtifactState
  tmp : ArtifactState
deriving DecidableEq, Repr

/-- `EmbeddingManager.save_vector_store`, as a step-by-step state
machine.  `saveLocalOk` / `moveOk` are the outcomes of the two fallible
external calls (`vector_store.save_local(tmp_dir)` and
`shutil.move(tmp_dir, path)`); `rmtree`/`makedirs` are modelled as
succeeding.  The error text mirrors the source: the save-failure message
interpolates only the underlying cause, not the path. -/
def saveVectorStore (vectorStore : Option Nat) (saveLocalOk moveOk : Bool)
    (fs : SaveFS) : Except String Unit × SaveFS :=
  match vectorStore with
  | none => (.error "No vector store to save.", fs)
  | some idx =>
    let fs1 : SaveFS := { fs with tmp := .incomplete }
    if saveLocalOk then
      let fs2 : SaveFS := { fs1 with tmp := .complete idx }
      let fs3 : SaveFS := { fs2 with canonical := .absent }
      if moveOk then
        (.ok (), { canonical := .complete idx, tmp := .absent })
      else
        (.error "Failed to save vector store: move failed",
         { fs3 with tmp := .absent })
    else
      (.error "Failed to save vector store: save_local failed",
       { fs1 with tmp := .absent })

/-! ## Concrete tables and states used by the theorems -/

/-- A messy statement table: ISO dates, currency-formatted amounts, one
unparsable `N/A` amount. -/
def exT : Table :=
  { header := ["Date", "Merchant", "Amount"],
    rows := [[.str "2024-01-02", .str "KFC Accra", .str "GHS 45.00"],
             [.str "2024-01-01", .str "Starbucks", .str "($1,234.56)"],
             [.str "2024-01-03", .str "Shop", .str "N/A"]] }

/-- The normalized output of `parseAndCleanCsv exT` (the `N/A` row is
gone; rows are sorted by date). -/
def exTOut : Table :=
  { header := ["date", "merchant", "amount", "is_suspicious"],
    rows := [[.date 20240101, .str "starbucks", .num (mkRat (-123456) 100), .bool true],
             [.date 20240102, .str "kfc accra", .num (mkRat 45 1), .bool false]] }

def exTSumm : Summary :=
  { total_rows := 3, valid_rows := 2, invalid_rows := 1, total_transactions := 2,
    total_amount := mkRat (-118956) 100, avg_amount := mkRat (-118956) 200,
    suspicious_count := 1,
    date_range_start := some 20240101, date_range_end := some 20240102 }

/-- A table with split `Debit`/`Credit` columns and no `amount` header. -/
def exDC : Table :=
  { header := ["Date", "Merchant", "Debit", "Credit"],
    rows := [[.str "2024-01-01", .str "shop a", .num 50, .num 0],
             [.str "2024-01-02", .str "shop b", .num 0, .num 120]] }

/-- `exDC` after header normalization (the argument fed to
`mergeDebitCredit` inside the pipeline). -/
def exDCNorm : Table :=
  { header := ["date", "merchant", "debit", "credit"],
    rows := exDC.rows }

/-- A debit/credit table that additionally carries a pre-existing
`amount` column: the merge overwrites it in place with credit − debit. -/
def exDCA : Table :=
  { header := ["date", "merchant", "debit", "credit", "amount"],
    rows := [[.str "2024-01-01", .str "shop a", .num 50, .num 0, .str "stale"],
             [.str "2024-01-02", .str "shop b", .num 0, .num 120, .na]] }

/-- Two raw headers (`"Date"` and `"date "`) that collide after
normalization, plus a plain amount column. -/
def exDup : Table :=
  { header := ["Date", "date ", "Amount"],
    rows := [[.str "2024-01-01", .str "2024-01-02", .num 10]] }

def exScriptHeader : Table :=
  { header := ["<script>alert(1)</script>", "b"],
    rows := [[.num 1, .num 2]] }

/-- A normal 3-column, 5-row table. -/
def exNormal3x5 : Table :=
  { header := ["date", "merchant", "amount"],
    rows := [[.str "2024-01-01", .str "a", .num 1],
             [.str "2024-01-02", .str "b", .num 2],
             [.str "2024-01-03", .str "c", .num 3],
             [.str "2024-01-04", .str "d", .num 4],
             [.str "2024-01-05", .str "e", .num 5]] }

/-- A table whose one row parses a date but whose amount is `N/A`: the
pipeline accepts it and drops the row, leaving an empty output. -/
def exAllNa : Table :=
  { header := ["date", "amount"],
    rows := [[.str "2024-01-05", .str "N/A"]] }

/-- The (empty) transaction table produced from `exAllNa`. -/
def exAllNaOut : Table :=
  { header := ["date", "amount", "merchant", "is_suspicious"], rows := [] }

def exAllNaSumm : Summary :=
  { total_rows := 1, valid_rows := 0, invalid_rows := 1, total_transactions := 0,
    total_amount := 0, avg_amount := 0, suspicious_count := 0,
    date_range_start := none, date_range_end := none }

/-- One column and 100001 rows: the row cap and the column minimum are
both violated, so the reported reason reveals the check order. -/
def exTooManyRowsOneCol : Table :=
  { header := ["a"], rows := List.replicate 100001 [.num 1] }

/-- A table whose sampled cell carries `system(`, a token on the header
denylist but not on the cell denylist. -/
def exSystemCell : Table :=
  { header := ["a", "b"], rows := [[.str "hello", .str "system(x)"]] }

/-- A normalized transaction table containing merchant `starbucks`. -/
def dfStar : Table :=
  { header := ["date", "merchant", "amount", "is_suspicious"],
    rows := [[.date 20240101, .str "starbucks", .num 5, .bool false],
             [.date 20240102, .str "kfc", .num 3, .bool false]] }

def summStar : Summary :=
  { total_rows := 2, valid_rows := 2, invalid_rows := 0, total_transactions := 2,
    total_amount := 8, avg_amount := 4, suspicious_count := 0,
    date_range_start := some 20240101, date_range_end := some 20240102 }

/-- A stub vector store whose nearest-neighbour search returns one `kfc`
hit, whatever the question. -/
def vsKfc : VStore :=
  fun _ => [{ text := "kfc - $3 on 2024-01-02",
              date? := some (.str "2024-01-02"),
              merchant? := some (.str "kfc"),
              amount? := some (.num 3) }]

def diskEmpty : String → DirState := fun _ => .missing

def emKfc : EmbeddingManagerState :=
  { vectorStore := some vsKfc, persistDirectory := none }

def emUninit : EmbeddingManagerState :=
  { vectorStore := none, persistDirectory := none }

/-- The normalized output of `parseAndCleanCsv exDC`: the merged amounts
are `credit − debit`, i.e. `-50` and `120` — not the `50`/`0` that plain
alias matching of the `debit` column would have produced, witnessing
that the merge runs before alias matching resolves the amount role. -/
def exDCOut : Table :=
  { header := ["date", "merchant", "amount", "is_suspicious"],
    rows := [[.date 20240101, .str "shop a", .num (-50), .bool true],
             [.date 20240102, .str "shop b", .num 120, .bool false]] }

def exDCSumm : Summary :=
  { total_rows := 2, valid_rows := 2, invalid_rows := 0, total_transactions := 2,
    total_amount := 70, avg_amount := 35, suspicious_count := 1,
    date_range_start := some 20240101, date_range_end := some 20240102 }

/-! ## Helper lemmas: column indices and positional edits -/

theorem mem_colIdxsFrom {off i : Nat} {hdr : List String} {name : String} :
    i ∈ colIdxsFrom off hdr name ↔ off ≤ i ∧ hdr[i - off]? = some name := by
  induction hdr generalizing off with
  | nil => simp [colIdxsFrom]
  | cons h rest ih =>
    unfold colIdxsFrom
    by_cases hh : h = name
    · rw [if_pos hh]
      constructor
      · intro hmem
        rcases List.mem_cons.mp hmem with heq | htl
        · subst heq
          refine ⟨Nat.le_refl _, ?_⟩
          simp [hh]
        · rcases ih.mp htl with ⟨hle, hget⟩
          refine ⟨by omega, ?_⟩
          have hsh : i - off = (i - (off + 1)) + 1 := by omega
          rw [hsh, List.getElem?_cons_succ]
          exact hget
      · rintro ⟨hle, hget⟩
        by_cases hio : i = off
        · subst hio
          exact List.mem_cons_self _ _
        · refine List.mem_cons.mpr (Or.inr (ih.mpr ⟨by omega, ?_⟩))
          have hsh : i - off = (i - (off + 1)) + 1 := by omega
          rw [hsh, List.getElem?_cons_succ] at hget
          exact hget
    · rw [if_neg hh]
      constructor
      · intro hmem
        rcases ih.mp hmem with ⟨hle, hget⟩
        refine ⟨by omega, ?_⟩
        have hsh : i - off = (i - (off + 1)) + 1 := by omega
        rw [hsh, List.getElem?_cons_succ]
        exact hget
      · rintro ⟨hle, hget⟩
        by_cases hio : i = off
        · subst hio
          simp at hget
          exact absurd hget hh
        · refine ih.mpr ⟨by omega, ?_⟩
          have hsh : i - off = (i - (off + 1)) + 1 := by omega
          rw [hsh, List.getElem?_cons_succ] at hget
          exact hget

theorem mem_colIdxs {i : Nat} {hdr : List String} {name : String} :
    i ∈ colIdxs hdr name ↔ hdr[i]? = some name := by
  unfold colIdxs
  rw [mem_colIdxsFrom]
  simp

theorem colIdxs_eq_nil_iff {hdr : List String} {name : String} :
    colIdxs hdr name = [] ↔ name ∉ hdr := by
  rw [List.eq_nil_iff_forall_not_mem]
  constructor
  · intro h hmem
    rcases List.mem_iff_getElem?.mp hmem with ⟨n, hn⟩
    exact h n (mem_colIdxs.mpr hn)
  · intro h i hi
    exact h (List.mem_iff_getElem?.mpr ⟨i, mem_colIdxs.mp hi⟩)

theorem colIdxs_singleton_getElem {hdr : List String} {name : String} {i : Nat}
    (h : colIdxs hdr name = [i]) :
    hdr[i]? = some name ∧ ∀ j, hdr[j]? = some name → j = i := by
  constructor
  · exact mem_colIdxs.mp (h ▸ List.mem_cons_self i [])
  · intro j hj
    have : j ∈ colIdxs hdr name := mem_colIdxs.mpr hj
    rw [h] at this
    simpa using this

theorem colIdxsFrom_ge {off : Nat} {hdr : List String} {name : String} :
    ∀ i ∈ colIdxsFrom off hdr name, off ≤ i :=
  fun _ hi => (mem_colIdxsFrom.mp hi).1

theorem colIdxsFrom_nodup {off : Nat} {hdr : List String} {name : String} :
    (colIdxsFrom off hdr name).Nodup := by
  induction hdr generalizing off with
  | nil => simp [colIdxsFrom]
  | cons h rest ih =>
    unfold colIdxsFrom
    by_cases hh : h = name
    · rw [if_pos hh]
      refine List.nodup_cons.mpr ⟨fun hmem => ?_, ih⟩
      have := colIdxsFrom_ge _ hmem
      omega
    · rw [if_neg hh]
      exact ih

theorem colIdxs_singleton_of_nodup {hdr : List String} {name : String}
    (hnd : hdr.Nodup) (hmem : name ∈ hdr) : ∃ i, colIdxs hdr name = [i] := by
  rcases List.mem_iff_getElem?.mp hmem with ⟨n, hn⟩
  refine ⟨n, ?_⟩
  have hall : ∀ j ∈ colIdxs hdr name, j = n := by
    intro j hj
    have hjn := mem_colIdxs.mp hj
    have hjlt : j < hdr.length := by
      rcases List.getElem?_eq_some_iff.mp hjn with ⟨hlt, _⟩
      exact hlt
    exact List.getElem?_inj hjlt hnd (hjn.trans hn.symm)
  have hnodup : (colIdxs hdr name).Nodup := colIdxsFrom_nodup
  have hne : n ∈ colIdxs hdr name := mem_colIdxs.mpr hn
  cases hcl : colIdxs hdr name with
  | nil =>
    rw [hcl] at hne
    cases hne
  | cons a tl =>
    have ha : a = n := hall a (hcl ▸ List.mem_cons_self a tl)
    cases tl with
    | nil => rw [ha]
    | cons b tl2 =>
      have hb : b = n := hall b (hcl ▸ List.mem_cons.mpr (Or.inr (List.mem_cons_self b tl2)))
      rw [hcl] at hnodup
      rcases List.nodup_cons.mp hnodup with ⟨hnotin, _⟩
      exact absurd (by rw [ha, ← hb]; exact List.mem_cons_self b tl2) hnotin

theorem colIdxsFrom_append {off : Nat} {l1 l2 : List String} {name : String} :
    colIdxsFrom off (l1 ++ l2) name =
      colIdxsFrom off l1 name ++ colIdxsFrom (off + l1.length) l2 name := by
  induction l1 generalizing off with
  | nil => simp [colIdxsFrom]
  | cons h rest ih =>
    simp only [List.cons_append]
    have hL : colIdxsFrom off (h :: (rest ++ l2)) name =
        if h = name then off :: colIdxsFrom (off + 1) (rest ++ l2) name
        else colIdxsFrom (off + 1) (rest ++ l2) name := rfl
    have hR : colIdxsFrom off (h :: rest) name =
        if h = name then off :: colIdxsFrom (off + 1) rest name
        else colIdxsFrom (off + 1) rest name := rfl
    rw [hL, hR]
    by_cases hh : h = name
    · rw [if_pos hh, if_pos hh, ih]
      have harith : off + 1 + rest.length = off + (h :: rest).length := by
        simp only [List.length_cons]
        omega
      rw [harith, ← List.cons_append]
    · rw [if_neg hh, if_neg hh, ih]
      have harith : off + 1 + rest.length = off + (h :: rest).length := by
        simp only [List.length_cons]
        omega
      rw [harith]

theorem length_setIdxsFrom {α : Type} {off : Nat} {l : List α} {idxs : List Nat} {v : α} :
    (setIdxsFrom off l idxs v).length = l.length := by
  induction l generalizing off with
  | nil => rfl
  | cons x rest ih => simp [setIdxsFrom, ih]

theorem getElem?_setIdxsFrom {α : Type} {off i : Nat} {l : List α} {idxs : List Nat} {v : α} :
    (setIdxsFrom off l idxs v)[i]? =
      if idxs.contains (off + i) = true ∧ i < l.length then some v else l[i]? := by
  induction l generalizing off i with
  | nil => simp [setIdxsFrom]
  | cons x rest ih =>
    cases i with
    | zero =>
      simp only [setIdxsFrom, List.getElem?_cons_zero, Nat.add_zero]
      by_cases hm : off ∈ idxs
      · simp [hm]
      · simp [hm]
    | succ k =>
      simp only [setIdxsFrom, List.getElem?_cons_succ]
      rw [ih]
      have harith : off + 1 + k = off + (k + 1) := by omega
      rw [harith]
      have hlen : (k + 1 < (x :: rest).length) ↔ (k < rest.length) := by
        simp only [List.length_cons]
        omega
      by_cases hc : idxs.contains (off + (k + 1)) = true
      · by_cases hk : k < rest.length
        · rw [if_pos ⟨hc, hk⟩, if_pos ⟨hc, hlen.mpr hk⟩]
        · rw [if_neg (fun hx => hk hx.2), if_neg (fun hx => hk (hlen.mp hx.2))]
      · rw [if_neg (fun hx => hc hx.1), if_neg (fun hx => hc hx.1)]

theorem setIdxsFrom_eq_self {α : Type} {off : Nat} {l : List α} {idxs : List Nat} {v : α}
    (h : ∀ i, i < l.length → idxs.contains (off + i) = true → l[i]? = some v) :
    setIdxsFrom off l idxs v = l := by
  induction l generalizing off with
  | nil => rfl
  | cons x rest ih =>
    unfold setIdxsFrom
    congr 1
    · by_cases hc : idxs.contains off = true
      · have := h 0 (by simp) (by simpa using hc)
        simp at this
        rw [if_pos hc, this]
      · rw [if_neg hc]
    · refine ih (fun i hi hc => ?_)
      have harith : off + 1 + i = off + (i + 1) := by omega
      rw [harith] at hc
      have := h (i + 1) (by simp only [List.length_cons]; omega) hc
      simpa using this

theorem removeIdxsFrom_append {α : Type} {off : Nat} {l1 l2 : List α} {idxs : List Nat} :
    removeIdxsFrom off (l1 ++ l2) idxs =
      removeIdxsFrom off l1 idxs ++ removeIdxsFrom (off + l1.length) l2 idxs := by
  induction l1 generalizing off with
  | nil => simp [removeIdxsFrom]
  | cons x rest ih =>
    simp only [List.cons_append]
    have hL : removeIdxsFrom off (x :: (rest ++ l2)) idxs =
        if idxs.contains off then removeIdxsFrom (off + 1) (rest ++ l2) idxs
        else x :: removeIdxsFrom (off + 1) (rest ++ l2) idxs := rfl
    have hR : removeIdxsFrom off (x :: rest) idxs =
        if idxs.contains off then removeIdxsFrom (off + 1) rest idxs
        else x :: removeIdxsFrom (off + 1) rest idxs := rfl
    rw [hL, hR]
    have harith : off + 1 + rest.length = off + (x :: rest).length := by
      simp only [List.length_cons]
      omega
    by_cases hc : idxs.contains off = true
    · rw [if_pos hc, if_pos hc, ih, harith]
    · rw [if_neg hc, if_neg hc, ih, harith, ← List.cons_append]

theorem length_removeIdxsFrom_congr {α β : Type} {off : Nat} {l1 : List α} {l2 : List β}
    {idxs : List Nat} (h : l1.length = l2.length) :
    (removeIdxsFrom off l1 idxs).length = (removeIdxsFrom off l2 idxs).length := by
  induction l1 generalizing off l2 with
  | nil =>
    cases l2 with
    | nil => rfl
    | cons y r2 => simp at h
  | cons x r1 ih =>
    cases l2 with
    | nil => simp at h
    | cons y r2 =>
      simp only [List.length_cons] at h
      have h2 : r1.length = r2.length := by omega
      unfold removeIdxsFrom
      by_cases hc : idxs.contains off = true
      · rw [if_pos hc, if_pos hc]
        exact ih h2
      · rw [if_neg hc, if_neg hc]
        simp only [List.length_cons]
        rw [ih h2]

theorem mem_removeIdxsFrom {α : Type} {off : Nat} {l : List α} {idxs : List Nat} {x : α} :
    x ∈ removeIdxsFrom off l idxs ↔
      ∃ j, idxs.contains (off + j) = false ∧ l[j]? = some x := by
  induction l generalizing off with
  | nil => simp [removeIdxsFrom]
  | cons y rest ih =>
    unfold removeIdxsFrom
    by_cases hc : idxs.contains off = true
    · rw [if_pos hc, ih]
      constructor
      · rintro ⟨j, hj, hget⟩
        refine ⟨j + 1, ?_, ?_⟩
        · have harith : off + (j + 1) = off + 1 + j := by omega
          rw [harith]
          exact hj
        · rw [List.getElem?_cons_succ]
          exact hget
      · rintro ⟨j, hj, hget⟩
        cases j with
        | zero =>
          rw [Nat.add_zero] at hj
          rw [hj] at hc
          cases hc
        | succ k =>
          refine ⟨k, ?_, ?_⟩
          · have harith : off + 1 + k = off + (k + 1) := by omega
            rw [harith]
            exact hj
          · rw [List.getElem?_cons_succ] at hget
            exact hget
    · rw [if_neg hc]
      rw [List.mem_cons, ih]
      constructor
      · rintro (heq | ⟨j, hj, hget⟩)
        · exact ⟨0, by simpa using Bool.eq_false_iff.mpr hc, by simp [heq]⟩
        · refine ⟨j + 1, ?_, ?_⟩
          · have harith : off + (j + 1) = off + 1 + j := by omega
            rw [harith]
            exact hj
          · rw [List.getElem?_cons_succ]
            exact hget
      · rintro ⟨j, hj, hget⟩
        cases j with
        | zero =>
          left
          simp at hget
          exact hget.symm
        | succ k =>
          right
          refine ⟨k, ?_, ?_⟩
          · have harith : off + 1 + k = off + (k + 1) := by omega
            rw [harith]
            exact hj
          · rw [List.getElem?_cons_succ] at hget
            exact hget

/-! ## Helper lemmas: pipeline stages -/

@[simp]
theorem Table.mapCol_header (t : Table) (i : Nat) (f : Val → Val) :
    (t.mapCol i f).header = t.header := rfl

theorem Table.mapCol_rows_length (t : Table) (i : Nat) (f : Val → Val) :
    (t.mapCol i f).rows.length = t.rows.length := by
  simp [Table.mapCol]

theorem cleanColumns_ok {t5 t8 : Table} {di ai : Nat}
    (h : cleanColumns t5 = .ok (t8, di, ai)) :
    ∃ mi, colIdxs t5.header "date" = [di] ∧ colIdxs t5.header "amount" = [ai] ∧
      colIdxs t5.header "merchant" = [mi] ∧
      t8 = ((t5.mapCol di pdToDatetime).mapCol ai cleanedVal).mapCol mi normMerchantVal := by
  unfold cleanColumns Table.uniqueIdx at h
  simp only [Table.mapCol_header] at h
  cases hd : colIdxs t5.header "date" with
  | nil =>
    rw [hd] at h
    simp [throw, throwThe, MonadExceptOf.throw, Bind.bind, Except.bind, pure, Except.pure] at h
  | cons d0 dtl =>
    cases dtl with
    | cons d1 dtl2 =>
      rw [hd] at h
      simp [throw, throwThe, MonadExceptOf.throw, Bind.bind, Except.bind, pure, Except.pure] at h
    | nil =>
      rw [hd] at h
      simp only [Bind.bind, Except.bind, pure, Except.pure] at h
      cases ha : colIdxs t5.header "amount" with
      | nil =>
        rw [ha] at h
        simp [throw, throwThe, MonadExceptOf.throw, Bind.bind, Except.bind, pure, Except.pure] at h
      | cons a0 atl =>
        cases atl with
        | cons a1 atl2 =>
          rw [ha] at h
          simp [throw, throwThe, MonadExceptOf.throw, Bind.bind, Except.bind, pure, Except.pure] at h
        | nil =>
          rw [ha] at h
          simp only [] at h
          cases hm : colIdxs t5.header "merchant" with
          | nil =>
            rw [hm] at h
            simp [throw, throwThe, MonadExceptOf.throw, Bind.bind, Except.bind, pure, Except.pure] at h
          | cons m0 mtl =>
            cases mtl with
            | cons m1 mtl2 =>
              rw [hm] at h
              simp [throw, throwThe, MonadExceptOf.throw, Bind.bind, Except.bind, pure, Except.pure] at h
            | nil =>
              rw [hm] at h
              simp only [Except.ok.injEq, Prod.mk.injEq] at h
              obtain ⟨ht8, hdi, hai⟩ := h
              subst hdi
              subst hai
              exact ⟨m0, rfl, rfl, rfl, ht8.symm⟩

theorem mergeDebitCredit_rows_length {t t' : Table}
    (h : mergeDebitCredit t = .ok t') : t'.rows.length = t.rows.length := by
  unfold mergeDebitCredit at h
  by_cases hc : (t.header.contains "debit" && t.header.contains "credit") = true
  · rw [if_pos hc] at h
    cases hd : colIdxs t.header "debit" with
    | nil =>
      rw [hd] at h
      simp [throw, throwThe, MonadExceptOf.throw, Bind.bind, Except.bind, pure, Except.pure] at h
    | cons d0 dtl =>
      cases dtl with
      | cons d1 dtl2 =>
        rw [hd] at h
        cases hcr : colIdxs t.header "credit" <;> rw [hcr] at h <;> simp [throw, throwThe, MonadExceptOf.throw, Bind.bind, Except.bind, pure, Except.pure] at h
      | nil =>
        rw [hd] at h
        cases hcr : colIdxs t.header "credit" with
        | nil =>
          rw [hcr] at h
          simp [throw, throwThe, MonadExceptOf.throw, Bind.bind, Except.bind, pure, Except.pure] at h
        | cons c0 ctl =>
          cases ctl with
          | cons c1 ctl2 =>
            rw [hcr] at h
            simp [throw, throwThe, MonadExceptOf.throw, Bind.bind, Except.bind, pure, Except.pure] at h
          | nil =>
            rw [hcr] at h
            simp only [Except.ok.injEq] at h
            subst h
            simp
  · rw [if_neg hc] at h
    simp only [Except.ok.injEq] at h
    subst h
    rfl

/-- Success inversion for the schema-resolution stage: the safety check
passed, the merge succeeded, both roles resolved, and the result is the
renamed/merchant-completed table. -/
theorem resolveColumns_ok {t0 t5 : Table} (h : resolveColumns t0 = .ok t5) :
    (isSafeCsv t0).1 = true ∧
    ∃ t2 dateCol amountCol mc?,
      mergeDebitCredit (normalizeColumnNames t0) = .ok t2 ∧
      inferDateColumn t2 = .ok (some dateCol) ∧
      inferAmountColumn t2 = some amountCol ∧
      inferMerchantColumn
        (if amountCol ≠ "amount"
          then renameCol (if dateCol ≠ "date" then renameCol t2 dateCol "date" else t2) amountCol "amount"
          else (if dateCol ≠ "date" then renameCol t2 dateCol "date" else t2)) = .ok mc? ∧
      t5 = (
        let t3 := if dateCol ≠ "date" then renameCol t2 dateCol "date" else t2
        let t4 := if amountCol ≠ "amount" then renameCol t3 amountCol "amount" else t3
        match mc? with
        | some mc => if mc ≠ "merchant" then renameCol t4 mc "merchant" else t4
        | none =>
          if !(t4.header.contains "merchant") then
            { header := t4.header ++ ["merchant"],
              rows := t4.rows.map (fun r => r ++ [Val.str "unknown_merchant"]) }
          else t4) := by
  unfold resolveColumns at h
  cases hp : isSafeCsv t0 with
  | mk ok msg =>
    rw [hp] at h
    cases ok with
    | false => simp [throw, throwThe, MonadExceptOf.throw, Bind.bind, Except.bind, pure, Except.pure] at h
    | true =>
      simp only [Bool.not_true, Bool.false_eq_true] at h
      rw [if_neg not_false] at h
      refine ⟨rfl, ?_⟩
      cases hm : mergeDebitCredit (normalizeColumnNames t0) with
      | error e =>
        rw [hm] at h
        simp [throw, throwThe, MonadExceptOf.throw, Bind.bind, Except.bind, pure, Except.pure] at h
      | ok t2 =>
        rw [hm] at h
        simp only [Bind.bind, Except.bind, pure, Except.pure] at h
        cases hdc : inferDateColumn t2 with
        | error e =>
          rw [hdc] at h
          simp [throw, throwThe, MonadExceptOf.throw, Bind.bind, Except.bind, pure, Except.pure] at h
        | ok dateCol? =>
          rw [hdc] at h
          simp only [] at h
          cases dateCol? with
          | none => simp [throw, throwThe, MonadExceptOf.throw, Bind.bind, Except.bind, pure, Except.pure] at h
          | some dateCol =>
            cases hac : inferAmountColumn t2 with
            | none =>
              rw [hac] at h
              simp [throw, throwThe, MonadExceptOf.throw, Bind.bind, Except.bind, pure, Except.pure] at h
            | some amountCol =>
              rw [hac] at h
              simp only [] at h
              cases hmc : inferMerchantColumn
                  (if amountCol ≠ "amount"
                    then renameCol (if dateCol ≠ "date" then renameCol t2 dateCol "date" else t2)
                      amountCol "amount"
                    else (if dateCol ≠ "date" then renameCol t2 dateCol "date" else t2)) with
              | error e =>
                rw [hmc] at h
                simp [throw, throwThe, MonadExceptOf.throw, Bind.bind, Except.bind, pure, Except.pure] at h
              | ok mc? =>
                rw [hmc] at h
                simp only [Except.ok.injEq] at h
                exact ⟨t2, dateCol, amountCol, mc?, rfl, hdc, hac, hmc, h.symm⟩

theorem resolveColumns_rows_length {t0 t5 : Table}
    (h : resolveColumns t0 = .ok t5) : t5.rows.length = t0.rows.length := by
  obtain ⟨-, t2, dateCol, amountCol, mc?, hm, -, -, -, ht5⟩ := resolveColumns_ok h
  have h2 := mergeDebitCredit_rows_length hm
  have h2' : t2.rows.length = t0.rows.length := h2
  subst ht5
  cases mc? with
  | some mc =>
    rcases eq_or_ne mc "merchant" with hmc | hmc <;>
      split_ifs <;> simp [renameCol, hmc, h2']
  | none => split_ifs <;> simp [renameCol, h2'] <;> split_ifs <;> simp [h2']

/-! ## Helper lemmas: cell access through the row transforms -/

theorem length_setIdxs {α : Type} {l : List α} {idxs : List Nat} {v : α} :
    (setIdxs l idxs v).length = l.length := length_setIdxsFrom

theorem getD_eq_getElem?D {l : List Val} {i : Nat} {d : Val} :
    l.getD i d = (l[i]?).getD d := List.getD_eq_getElem?_getD l i d

theorem getD_setIdxs_notmem {l : List Val} {idxs : List Nat} {v d : Val} {j : Nat}
    (h : idxs.contains j = false) :
    (setIdxs l idxs v).getD j d = l.getD j d := by
  rw [getD_eq_getElem?D, getD_eq_getElem?D]
  unfold setIdxs
  rw [getElem?_setIdxsFrom]
  rw [if_neg]
  rintro ⟨hc, -⟩
  rw [Nat.zero_add] at hc
  rw [h] at hc
  cases hc

theorem getD_setIdxs_self {l : List Val} {i : Nat} {v d : Val} :
    (setIdxs l [i] v).getD i d = if i < l.length then v else d := by
  rw [getD_eq_getElem?D]
  unfold setIdxs
  rw [getElem?_setIdxsFrom]
  by_cases hi : i < l.length
  · rw [if_pos ⟨by simp, hi⟩, if_pos hi]
    rfl
  · rw [if_neg (fun hx => hi hx.2), if_neg hi]
    rw [List.getElem?_eq_none (by omega)]
    rfl

theorem getD_default_of_ge {l : List Val} {i : Nat} {d : Val} (h : l.length ≤ i) :
    l.getD i d = d := by
  rw [getD_eq_getElem?D, List.getElem?_eq_none h]
  rfl

theorem lt_length_of_getD_ne {l : List Val} {i : Nat} {d : Val}
    (h : l.getD i d ≠ d) : i < l.length := by
  by_contra hge
  exact h (getD_default_of_ge (by omega))

theorem getD_append_lt {l : List Val} {x d : Val} {j : Nat} (h : j < l.length) :
    (l ++ [x]).getD j d = l.getD j d := by
  rw [getD_eq_getElem?D, getD_eq_getElem?D, List.getElem?_append, if_pos h]

theorem contains_singleton_false {j x : Nat} (h : j ≠ x) :
    ([x].contains j) = false := by
  simp [h]

theorem pdToDatetime_na_or_date (v : Val) :
    (pdToDatetime v).isNa = true ∨ ∃ d, pdToDatetime v = Val.date d := by
  cases v with
  | date d => exact Or.inr ⟨d, rfl⟩
  | str s =>
    unfold pdToDatetime
    cases hp : parseDateStr s with
    | none => exact Or.inl (by simp [hp, Val.isNa])
    | some d => exact Or.inr ⟨d, by simp [hp]⟩
  | na => exact Or.inl rfl
  | num q => exact Or.inl rfl
  | bool b => exact Or.inl rfl

theorem toNumericVal_na_or_num (v : Val) :
    (toNumericVal v).isNa = true ∨ ∃ q, toNumericVal v = Val.num q := by
  cases v with
  | num q => exact Or.inr ⟨q, rfl⟩
  | na => exact Or.inl rfl
  | str s => exact Or.inl rfl
  | date d => exact Or.inl rfl
  | bool b => exact Or.inl rfl

theorem addSuspicious_header (t : Table) (ai : Nat) :
    (addSuspicious t ai).header =
      if (colIdxs t.header "is_suspicious").isEmpty then t.header ++ ["is_suspicious"]
      else t.header := by
  simp only [addSuspicious]
  split_ifs <;> rfl

theorem addSuspicious_rows (t : Table) (ai : Nat) :
    (addSuspicious t ai).rows =
      if (colIdxs t.header "is_suspicious").isEmpty
      then t.rows.map (fun r => r ++ [Val.bool (ratIsNeg (rowAmount r ai))])
      else t.rows.map (fun r => setIdxs r (colIdxs t.header "is_suspicious")
        (Val.bool (ratIsNeg (rowAmount r ai)))) := by
  simp only [addSuspicious]
  split_ifs <;> rfl

theorem finalizeRows_summary_fields (orig : Nat) (t8 : Table) (di ai : Nat) :
    (finalizeRows orig t8 di ai).2.total_rows = orig ∧
    (finalizeRows orig t8 di ai).2.valid_rows = (finalizeRows orig t8 di ai).1.rows.length ∧
    ((finalizeRows orig t8 di ai).1.rows.length ≤ orig →
      (finalizeRows orig t8 di ai).2.invalid_rows + (finalizeRows orig t8 di ai).2.valid_rows =
        (finalizeRows orig t8 di ai).2.total_rows) := by
  simp only [finalizeRows]
  split_ifs with hz
  · exact ⟨rfl, hz.symm, fun _ => by dsimp only; omega⟩
  · exact ⟨rfl, rfl, fun hL => by dsimp only at hL ⊢; omega⟩

theorem finalizeRows_rows_length_le (orig : Nat) (t8 : Table) (di ai : Nat) :
    (finalizeRows orig t8 di ai).1.rows.length ≤ t8.rows.length := by
  rw [show (finalizeRows orig t8 di ai).1.rows = ((addSuspicious { header := t8.header, rows :=
    (((t8.rows.filter (fun r => !(r.getD di Val.na).isNa && !(r.getD ai Val.na).isNa)).map
      (fun r => setIdxs r [ai] (toNumericVal (r.getD ai Val.na)))).filter
        (fun r => !(r.getD ai Val.na).isNa)) } ai).rows.insertionSort
          (fun r1 r2 => dateLe di r1 r2 = true)) from rfl]
  rw [List.length_insertionSort, addSuspicious_rows]
  split_ifs <;>
    calc (List.map _ _).length = _ := List.length_map _ _
      _ ≤ _ := (List.length_filter_le _ _).trans
        (le_of_le_of_eq (le_of_eq (List.length_map _ _)) rfl |>.trans
          (List.length_filter_le _ _))

theorem finalizeRows_header (orig : Nat) (t8 : Table) (di ai : Nat) :
    (finalizeRows orig t8 di ai).1.header =
      if (colIdxs t8.header "is_suspicious").isEmpty then t8.header ++ ["is_suspicious"]
      else t8.header := by
  rw [show (finalizeRows orig t8 di ai).1.header = (addSuspicious { header := t8.header, rows :=
    (((t8.rows.filter (fun r => !(r.getD di Val.na).isNa && !(r.getD ai Val.na).isNa)).map
      (fun r => setIdxs r [ai] (toNumericVal (r.getD ai Val.na)))).filter
        (fun r => !(r.getD ai Val.na).isNa)) } ai).header from rfl]
  rw [addSuspicious_header]

theorem finalizeRows_rows_mem {orig : Nat} {t8 : Table} {di ai : Nat} (hdiai : di ≠ ai)
    (hdi : colIdxs t8.header "date" = [di]) (hai : colIdxs t8.header "amount" = [ai])
    (hdshape : ∀ r ∈ t8.rows,
      (r.getD di Val.na).isNa = true ∨ ∃ d, r.getD di Val.na = Val.date d) :
    ∀ r ∈ (finalizeRows orig t8 di ai).1.rows,
      (∃ d, r.getD di Val.na = Val.date d) ∧ ∃ q, r.getD ai Val.na = Val.num q := by
  intro r hr
  rw [show (finalizeRows orig t8 di ai).1.rows = ((addSuspicious { header := t8.header, rows :=
    (((t8.rows.filter (fun r => !(r.getD di Val.na).isNa && !(r.getD ai Val.na).isNa)).map
      (fun r => setIdxs r [ai] (toNumericVal (r.getD ai Val.na)))).filter
        (fun r => !(r.getD ai Val.na).isNa)) } ai).rows.insertionSort
          (fun r1 r2 => dateLe di r1 r2 = true)) from rfl] at hr
  have hr2 := (List.perm_insertionSort _ _).mem_iff.mp hr
  rw [addSuspicious_rows] at hr2
  -- facts about any row of rows11
  have hmain : ∀ r' ∈ (((t8.rows.filter
        (fun r => !(r.getD di Val.na).isNa && !(r.getD ai Val.na).isNa)).map
      (fun r => setIdxs r [ai] (toNumericVal (r.getD ai Val.na)))).filter
        (fun r => !(r.getD ai Val.na).isNa)),
      (∃ d, r'.getD di Val.na = Val.date d) ∧ ∃ q, r'.getD ai Val.na = Val.num q := by
    intro r' hr'
    rcases List.mem_filter.mp hr' with ⟨hr'10, hp⟩
    rcases List.mem_map.mp hr'10 with ⟨r9, hr9, hr'eq⟩
    rcases List.mem_filter.mp hr9 with ⟨hr9mem, hq⟩
    simp only [Bool.and_eq_true] at hq
    rcases hq with ⟨hqd, hqa⟩
    have hqd' : (r9.getD di Val.na).isNa = false := by
      cases hx : (r9.getD di Val.na).isNa
      · rfl
      · rw [hx] at hqd
        cases hqd
    constructor
    · have hcell : r'.getD di Val.na = r9.getD di Val.na := by
        rw [← hr'eq]
        exact getD_setIdxs_notmem (contains_singleton_false hdiai)
      rw [hcell]
      rcases hdshape r9 hr9mem with hna | hd
      · rw [hna] at hqd'
        cases hqd'
      · exact hd
    · have hpa : (r'.getD ai Val.na).isNa = false := by
        cases hx : (r'.getD ai Val.na).isNa
        · rfl
        · rw [hx] at hp
          cases hp
      have hcell : r'.getD ai Val.na =
          if ai < r9.length then toNumericVal (r9.getD ai Val.na) else Val.na := by
        rw [← hr'eq]
        exact getD_setIdxs_self
      by_cases hlt : ai < r9.length
      · rw [hcell, if_pos hlt] at hpa ⊢
        rcases toNumericVal_na_or_num (r9.getD ai Val.na) with hna | hnum
        · rw [hna] at hpa
          cases hpa
        · exact hnum
      · rw [hcell, if_neg hlt] at hpa
        cases hpa
  -- transfer through the is_suspicious column write
  split at hr2
  · rcases List.mem_map.mp hr2 with ⟨r', hr'11, hreq⟩
    rcases hmain r' hr'11 with ⟨⟨d, hd⟩, ⟨q, hq⟩⟩
    have hdlt : di < r'.length := lt_length_of_getD_ne (by rw [hd]; simp)
    have halt : ai < r'.length := lt_length_of_getD_ne (by rw [hq]; simp)
    subst hreq
    exact ⟨⟨d, by rw [getD_append_lt hdlt]; exact hd⟩,
           ⟨q, by rw [getD_append_lt halt]; exact hq⟩⟩
  · rcases List.mem_map.mp hr2 with ⟨r', hr'11, hreq⟩
    rcases hmain r' hr'11 with ⟨⟨d, hd⟩, ⟨q, hq⟩⟩
    have hdnot : ((colIdxs t8.header "is_suspicious").contains di) = false := by
      cases hx : ((colIdxs t8.header "is_suspicious").contains di)
      · rfl
      · exfalso
        have hmem : di ∈ colIdxs t8.header "is_suspicious" := by
          simpa using hx
        have := mem_colIdxs.mp hmem
        rw [(colIdxs_singleton_getElem hdi).1] at this
        simp at this
    have hanot : ((colIdxs t8.header "is_suspicious").contains ai) = false := by
      cases hx : ((colIdxs t8.header "is_suspicious").contains ai)
      · rfl
      · exfalso
        have hmem : ai ∈ colIdxs t8.header "is_suspicious" := by
          simpa using hx
        have := mem_colIdxs.mp hmem
        rw [(colIdxs_singleton_getElem hai).1] at this
        simp at this
    subst hreq
    exact ⟨⟨d, by rw [getD_setIdxs_notmem hdnot]; exact hd⟩,
           ⟨q, by rw [getD_setIdxs_notmem hanot]; exact hq⟩⟩

theorem removeIdxsFrom_sublist {α : Type} {off : Nat} {l : List α} {idxs : List Nat} :
    List.Sublist (removeIdxsFrom off l idxs) l := by
  induction l generalizing off with
  | nil => simp [removeIdxsFrom]
  | cons x rest ih =>
    unfold removeIdxsFrom
    by_cases hc : idxs.contains off = true
    · rw [if_pos hc]
      exact (ih).cons x
    · rw [if_neg hc]
      exact (ih).cons₂ x

theorem mergeDebitCredit_nodup {t t' : Table} (hnd : t.header.Nodup)
    (h : mergeDebitCredit t = .ok t') : t'.header.Nodup := by
  unfold mergeDebitCredit at h
  by_cases hc : (t.header.contains "debit" && t.header.contains "credit") = true
  · rw [if_pos hc] at h
    cases hd : colIdxs t.header "debit" with
    | nil =>
      rw [hd] at h
      simp at h
    | cons d0 dtl =>
      cases dtl with
      | cons d1 dtl2 =>
        rw [hd] at h
        cases hcr : colIdxs t.header "credit" <;> rw [hcr] at h <;> simp at h
      | nil =>
        rw [hd] at h
        cases hcr : colIdxs t.header "credit" with
        | nil =>
          rw [hcr] at h
          simp at h
        | cons c0 ctl =>
          cases ctl with
          | cons c1 ctl2 =>
            rw [hcr] at h
            simp at h
          | nil =>
            rw [hcr] at h
            simp only [Except.ok.injEq] at h
            subst h
            by_cases hamt : (colIdxs t.header "amount").isEmpty = true
            · have hnotin : "amount" ∉ t.header := by
                refine colIdxs_eq_nil_iff.mp ?_
                cases hx : colIdxs t.header "amount"
                · rfl
                · rw [hx] at hamt
                  cases hamt
              have happ : (t.header ++ ["amount"]).Nodup := by
                rw [List.nodup_append]
                exact ⟨hnd, List.nodup_singleton _, by simpa using hnotin⟩
              simp only [hamt, if_true]
              exact happ.sublist removeIdxsFrom_sublist
            · simp only [hamt, if_false]
              exact hnd.sublist removeIdxsFrom_sublist
  · rw [if_neg hc] at h
    simp only [Except.ok.injEq] at h
    subst h
    exact hnd

theorem mem_rename_of_mem {t : Table} {x old new : String} (hx : x ∈ t.header)
    (hne : x ≠ old) : x ∈ (renameCol t old new).header :=
  List.mem_map.mpr ⟨x, hx, by simp [hne]⟩

theorem new_mem_rename {t : Table} {old new : String} (hold : old ∈ t.header) :
    new ∈ (renameCol t old new).header :=
  List.mem_map.mpr ⟨old, hold, by simp⟩

theorem mem_rename_elim {t : Table} {x old new : String}
    (hx : x ∈ (renameCol t old new).header) :
    x = new ∨ (x ∈ t.header ∧ x ≠ old) := by
  rcases List.mem_map.mp hx with ⟨h, hh, heq⟩
  by_cases hcase : h = old
  · rw [hcase] at heq
    simp at heq
    exact Or.inl heq.symm
  · rw [if_neg hcase] at heq
    subst heq
    exact Or.inr ⟨hh, hcase⟩

theorem rename_nodup {t : Table} {old new : String} (hnd : t.header.Nodup)
    (hnew : new ∉ t.header) : (renameCol t old new).header.Nodup := by
  refine hnd.map_on ?_
  intro x hx y hy hxy
  by_cases hxo : x = old <;> by_cases hyo : y = old
  · rw [hxo, hyo]
  · rw [if_pos hxo, if_neg hyo] at hxy
    exact absurd (hxy ▸ hy) hnew
  · rw [if_neg hxo, if_pos hyo] at hxy
    exact absurd (hxy ▸ hx) hnew
  · rwa [if_neg hxo, if_neg hyo] at hxy

theorem inferDateLoop_mem {t : Table} {l : List String} {c : String}
    (h : inferDateLoop t l = .ok (some c)) : c ∈ l := by
  induction l with
  | nil =>
    unfold inferDateLoop at h
    simp at h
  | cons x rest ih =>
    unfold inferDateLoop at h
    cases hci : colIdxs t.header x with
    | nil =>
      rw [hci] at h
      cases h
    | cons i itl =>
      cases itl with
      | cons j jtl =>
        rw [hci] at h
        cases h
      | nil =>
        rw [hci] at h
        dsimp only at h
        by_cases hobj : isObjectDtype (t.colVals i) = true
        · rw [if_pos hobj] at h
          by_cases hsn : dateSniffOk (t.colVals i) = true
          · rw [if_pos hsn] at h
            simp only [Except.ok.injEq, Option.some.injEq] at h
            subst h
            exact List.mem_cons_self _ _
          · rw [if_neg hsn] at h
            exact List.mem_cons.mpr (Or.inr (ih h))
        · rw [if_neg hobj] at h
          exact List.mem_cons.mpr (Or.inr (ih h))

theorem inferDateColumn_mem {t : Table} {c : String}
    (h : inferDateColumn t = .ok (some c)) : c ∈ t.header := by
  unfold inferDateColumn at h
  cases hf : dateAliases.find? (fun a => t.header.contains a) with
  | some a =>
    rw [hf] at h
    simp only [Except.ok.injEq, Option.some.injEq] at h
    subst h
    have := List.find?_some hf
    simpa using this
  | none =>
    rw [hf] at h
    exact inferDateLoop_mem h

theorem inferDateColumn_of_date_mem {t : Table} (hmem : "date" ∈ t.header) :
    inferDateColumn t = .ok (some "date") := by
  have hcon : t.header.contains "date" = true := by simpa using hmem
  unfold inferDateColumn dateAliases
  rw [List.find?_cons_of_pos _ hcon]

theorem inferAmountLoop_mem_ne {t : Table} {l : List String} {c : String}
    (h : inferAmountLoop t l = some c) :
    c ∈ l ∧ c ≠ "date" := by
  induction l with
  | nil =>
    unfold inferAmountLoop at h
    cases h
  | cons x rest ih =>
    unfold inferAmountLoop at h
    by_cases hskip : (!(["date", "transaction_date"].contains x)) = true
    · rw [if_pos hskip] at h
      cases hci : colIdxs t.header x with
      | nil =>
        rw [hci] at h
        rcases ih h with ⟨h1, h2⟩
        exact ⟨List.mem_cons.mpr (Or.inr h1), h2⟩
      | cons i itl =>
        cases itl with
        | cons j jtl =>
          rw [hci] at h
          rcases ih h with ⟨h1, h2⟩
          exact ⟨List.mem_cons.mpr (Or.inr h1), h2⟩
        | nil =>
          rw [hci] at h
          dsimp only at h
          by_cases hsn : amountSniffOk (t.colVals i) = true
          · rw [if_pos hsn] at h
            simp only [Option.some.injEq] at h
            subst h
            refine ⟨List.mem_cons_self _ _, ?_⟩
            intro hdate
            rw [hdate] at hskip
            simp at hskip
          · rw [if_neg hsn] at h
            rcases ih h with ⟨h1, h2⟩
            exact ⟨List.mem_cons.mpr (Or.inr h1), h2⟩
    · rw [if_neg hskip] at h
      rcases ih h with ⟨h1, h2⟩
      exact ⟨List.mem_cons.mpr (Or.inr h1), h2⟩

theorem inferAmountColumn_mem {t : Table} {c : String}
    (h : inferAmountColumn t = some c) : c ∈ t.header := by
  unfold inferAmountColumn at h
  cases hf : amountAliases.find? (fun a => t.header.contains a) with
  | some a =>
    rw [hf] at h
    simp only [Option.some.injEq] at h
    subst h
    have := List.find?_some hf
    simpa using this
  | none =>
    rw [hf] at h
    exact (inferAmountLoop_mem_ne h).1

theorem inferAmountColumn_ne_date {t : Table} {c : String}
    (h : inferAmountColumn t = some c) : c ≠ "date" := by
  unfold inferAmountColumn at h
  cases hf : amountAliases.find? (fun a => t.header.contains a) with
  | some a =>
    rw [hf] at h
    simp only [Option.some.injEq] at h
    subst h
    intro hd
    have hmem := List.mem_of_find?_eq_some hf
    rw [hd] at hmem
    revert hmem
    decide
  | none =>
    rw [hf] at h
    exact (inferAmountLoop_mem_ne h).2

theorem inferAmountColumn_of_amount_mem {t : Table} (hmem : "amount" ∈ t.header) :
    inferAmountColumn t = some "amount" := by
  have hcon : t.header.contains "amount" = true := by simpa using hmem
  unfold inferAmountColumn amountAliases
  rw [List.find?_cons_of_pos _ hcon]

theorem inferMerchantLoop_mem_ne {t : Table} {l : List String} {c : String}
    (h : inferMerchantLoop t l = .ok (some c)) :
    c ∈ l ∧ c ≠ "date" ∧ c ≠ "amount" := by
  induction l with
  | nil =>
    unfold inferMerchantLoop at h
    simp at h
  | cons x rest ih =>
    unfold inferMerchantLoop at h
    by_cases hskip : (!(["date", "amount"].contains x)) = true
    · rw [if_pos hskip] at h
      cases hci : colIdxs t.header x with
      | nil =>
        rw [hci] at h
        cases h
      | cons i itl =>
        cases itl with
        | cons j jtl =>
          rw [hci] at h
          cases h
        | nil =>
          rw [hci] at h
          dsimp only at h
          by_cases hobj : isObjectDtype (t.colVals i) = true
          · rw [if_pos hobj] at h
            simp only [Except.ok.injEq, Option.some.injEq] at h
            subst h
            refine ⟨List.mem_cons_self _ _, ?_, ?_⟩
            · intro hd
              rw [hd] at hskip
              simp at hskip
            · intro ha
              rw [ha] at hskip
              simp at hskip
          · rw [if_neg hobj] at h
            rcases ih h with ⟨h1, h2⟩
            exact ⟨List.mem_cons.mpr (Or.inr h1), h2⟩
    · rw [if_neg hskip] at h
      rcases ih h with ⟨h1, h2⟩
      exact ⟨List.mem_cons.mpr (Or.inr h1), h2⟩

theorem inferMerchantColumn_ne {t : Table} {c : String}
    (h : inferMerchantColumn t = .ok (some c)) : c ≠ "date" ∧ c ≠ "amount" := by
  unfold inferMerchantColumn at h
  cases hf : merchantAliases.find? (fun a => t.header.contains a) with
  | some a =>
    rw [hf] at h
    simp only [Except.ok.injEq, Option.some.injEq] at h
    subst h
    have hmem := List.mem_of_find?_eq_some hf
    constructor
    · intro hd
      rw [hd] at hmem
      revert hmem
      decide
    · intro ha
      rw [ha] at hmem
      revert hmem
      decide
  | none =>
    rw [hf] at h
    exact (inferMerchantLoop_mem_ne h).2

theorem inferMerchantColumn_of_merchant_mem {t : Table} (hmem : "merchant" ∈ t.header) :
    inferMerchantColumn t = .ok (some "merchant") := by
  have hcon : t.header.contains "merchant" = true := by simpa using hmem
  unfold inferMerchantColumn merchantAliases
  rw [List.find?_cons_of_pos _ hcon]

theorem inferMerchantLoop_total {t : Table} {l : List String}
    (hsub : ∀ c ∈ l, c ∈ t.header) (hnd : t.header.Nodup) :
    ∃ r, inferMerchantLoop t l = .ok r := by
  induction l with
  | nil => exact ⟨none, rfl⟩
  | cons x rest ih =>
    unfold inferMerchantLoop
    by_cases hskip : (!(["date", "amount"].contains x)) = true
    · rw [if_pos hskip]
      obtain ⟨i, hi⟩ := colIdxs_singleton_of_nodup hnd (hsub x (List.mem_cons_self _ _))
      rw [hi]
      dsimp only
      by_cases hobj : isObjectDtype (t.colVals i) = true
      · rw [if_pos hobj]
        exact ⟨some x, rfl⟩
      · rw [if_neg hobj]
        exact ih (fun c hc => hsub c (List.mem_cons.mpr (Or.inr hc)))
    · rw [if_neg hskip]
      exact ih (fun c hc => hsub c (List.mem_cons.mpr (Or.inr hc)))

theorem inferMerchantColumn_total {t : Table} (hnd : t.header.Nodup) :
    ∃ r, inferMerchantColumn t = .ok r := by
  unfold inferMerchantColumn
  cases hf : merchantAliases.find? (fun a => t.header.contains a) with
  | some a => exact ⟨some a, rfl⟩
  | none => exact inferMerchantLoop_total (fun c hc => hc) hnd

/-! ## Helper lemmas: idempotence of the normalizer -/

theorem char_toNat_ofNat {n : Nat} (h : n < 55296) : (Char.ofNat n).toNat = n := by
  unfold Char.ofNat
  rw [dif_pos (Or.inl h : n.isValidChar)]
  rfl

theorem pyLowerChar_toNat {c : Char} (h : (65 ≤ c.toNat && c.toNat ≤ 90) = true) :
    (pyLowerChar c).toNat = c.toNat + 32 := by
  unfold pyLowerChar
  rw [if_pos h]
  simp only [Bool.and_eq_true, decide_eq_true_eq] at h
  exact char_toNat_ofNat (by omega)

theorem pyLowerChar_eq_self {c : Char} (h : (65 ≤ c.toNat && c.toNat ≤ 90) = false) :
    pyLowerChar c = c := by
  unfold pyLowerChar
  rw [h]
  simp

theorem pyLowerChar_not_upper (c : Char) :
    (65 ≤ (pyLowerChar c).toNat && (pyLowerChar c).toNat ≤ 90) = false := by
  cases hu : (65 ≤ c.toNat && c.toNat ≤ 90) with
  | true =>
    have ht := pyLowerChar_toNat hu
    simp only [Bool.and_eq_true, decide_eq_true_eq] at hu
    have hb : ¬((pyLowerChar c).toNat ≤ 90) := by omega
    simp [hb]
  | false =>
    rw [pyLowerChar_eq_self hu]
    exact hu

theorem pyLowerChar_idem (c : Char) : pyLowerChar (pyLowerChar c) = pyLowerChar c :=
  pyLowerChar_eq_self (pyLowerChar_not_upper c)

theorem pyIsSpace_of_ge {c : Char} (h : 65 ≤ c.toNat) : pyIsSpace c = false := by
  have h1 : c ≠ ' ' := fun he => absurd h (by rw [he]; decide)
  have h2 : c ≠ '\t' := fun he => absurd h (by rw [he]; decide)
  have h3 : c ≠ '\n' := fun he => absurd h (by rw [he]; decide)
  have h4 : c ≠ '\r' := fun he => absurd h (by rw [he]; decide)
  have h5 : c ≠ '\x0b' := fun he => absurd h (by rw [he]; decide)
  have h6 : c ≠ '\x0c' := fun he => absurd h (by rw [he]; decide)
  unfold pyIsSpace
  simp [h1, h2, h3, h4, h5, h6]

theorem pyIsSpace_pyLowerChar (c : Char) : pyIsSpace (pyLowerChar c) = pyIsSpace c := by
  cases hu : (65 ≤ c.toNat && c.toNat ≤ 90) with
  | true =>
    have hup : 65 ≤ c.toNat := by
      simp only [Bool.and_eq_true, decide_eq_true_eq] at hu
      exact hu.1
    have hlow : 65 ≤ (pyLowerChar c).toNat := by
      rw [pyLowerChar_toNat hu]
      omega
    rw [pyIsSpace_of_ge hlow, pyIsSpace_of_ge hup]
  | false => rw [pyLowerChar_eq_self hu]

theorem underscoreSpaceChar_ne_space (c : Char) : underscoreSpaceChar c ≠ ' ' := by
  unfold underscoreSpaceChar
  by_cases h : c = ' '
  · rw [if_pos h]
    decide
  · rw [if_neg h]
    exact h

theorem pyIsSpace_underscoreSpaceChar {c : Char} (h : pyIsSpace c = false) :
    pyIsSpace (underscoreSpaceChar c) = false := by
  have hc : c ≠ ' ' := by
    intro he
    rw [he] at h
    exact absurd h (by decide)
  unfold underscoreSpaceChar
  rw [if_neg hc]
  exact h

theorem underscoreSpaceChar_not_upper {c : Char}
    (h : (65 ≤ c.toNat && c.toNat ≤ 90) = false) :
    (65 ≤ (underscoreSpaceChar c).toNat && (underscoreSpaceChar c).toNat ≤ 90) = false := by
  unfold underscoreSpaceChar
  by_cases hc : c = ' '
  · rw [if_pos hc]
    decide
  · rw [if_neg hc]
    exact h

theorem replaceListAux_space {fuel : Nat} {l : List Char} (h : l.length ≤ fuel) :
    replaceListAux fuel l [' '] ['_'] = l.map underscoreSpaceChar := by
  induction fuel generalizing l with
  | zero =>
    have hnil : l = [] := List.length_eq_zero.mp (by omega)
    subst hnil
    rfl
  | succ fuel ih =>
    cases l with
    | nil => rfl
    | cons c rest =>
      simp only [List.length_cons] at h
      have hstep : replaceListAux (fuel + 1) (c :: rest) [' '] ['_'] =
          if ([' '].isPrefixOf (c :: rest) && !([' '] : List Char).isEmpty) = true then
            ['_'] ++ replaceListAux fuel ((c :: rest).drop ([' '] : List Char).length) [' '] ['_']
          else c :: replaceListAux fuel rest [' '] ['_'] := rfl
      rw [hstep]
      by_cases hc : c = ' '
      · subst hc
        rw [if_pos (by simp [List.isPrefixOf])]
        have hdrop : ((' ' :: rest).drop ([' '] : List Char).length) = rest := rfl
        rw [hdrop, ih (by omega)]
        simp [underscoreSpaceChar]
      · have hpre : ([' '].isPrefixOf (c :: rest) && !([' '] : List Char).isEmpty) = false := by
          simp [List.isPrefixOf, Ne.symm hc]
        rw [hpre, if_neg Bool.false_ne_true]
        rw [ih (by omega)]
        have hu : underscoreSpaceChar c = c := by
          unfold underscoreSpaceChar
          rw [if_neg hc]
        rw [List.map_cons, hu]

theorem replaceList_space (l : List Char) :
    replaceList l [' '] ['_'] = l.map underscoreSpaceChar :=
  replaceListAux_space (Nat.le_refl _)

theorem map_fixed {α : Type} {f : α → α} {l : List α} (h : ∀ x ∈ l, f x = x) :
    l.map f = l :=
  (List.map_congr_left h).trans (List.map_id l)

theorem head?_dropWhile_space {l : List Char} {c : Char}
    (h : (l.dropWhile pyIsSpace).head? = some c) : pyIsSpace c = false := by
  induction l with
  | nil => simp at h
  | cons a rest ih =>
    rw [List.dropWhile_cons] at h
    by_cases ha : pyIsSpace a = true
    · rw [if_pos ha] at h
      exact ih h
    · rw [if_neg ha] at h
      simp only [List.head?_cons, Option.some.injEq] at h
      subst h
      simpa using ha

theorem getLast?_dropWhile_space {l : List Char} (h : l.dropWhile pyIsSpace ≠ []) :
    (l.dropWhile pyIsSpace).getLast? = l.getLast? := by
  induction l with
  | nil => simp at h
  | cons a rest ih =>
    rw [List.dropWhile_cons] at h ⊢
    by_cases ha : pyIsSpace a = true
    · rw [if_pos ha] at h ⊢
      rw [ih h]
      have hrest : rest ≠ [] := by
        intro he
        subst he
        simp at h
      rw [List.getLast?_cons]
      cases hx : rest.getLast? with
      | none => exact absurd (List.getLast?_eq_none_iff.mp hx) hrest
      | some x => rfl
    · rw [if_neg ha] at h ⊢

theorem dropWhile_space_eq_self {l : List Char}
    (h : ∀ c, l.head? = some c → pyIsSpace c = false) : l.dropWhile pyIsSpace = l := by
  cases l with
  | nil => rfl
  | cons a rest =>
    rw [List.dropWhile_cons, h a rfl]
    simp

theorem pyStripList_eq_self {l : List Char}
    (h1 : ∀ c, l.head? = some c → pyIsSpace c = false)
    (h2 : ∀ c, l.getLast? = some c → pyIsSpace c = false) : pyStripList l = l := by
  unfold pyStripList
  rw [dropWhile_space_eq_self h1]
  rw [dropWhile_space_eq_self (fun c hc => h2 c (by rwa [List.head?_reverse] at hc))]
  exact List.reverse_reverse l

theorem pyStripList_head {l : List Char} {c : Char} (h : (pyStripList l).head? = some c) :
    pyIsSpace c = false := by
  unfold pyStripList at h
  rw [List.head?_reverse] at h
  have hne : (l.dropWhile pyIsSpace).reverse.dropWhile pyIsSpace ≠ [] := by
    intro he
    rw [he] at h
    cases h
  rw [getLast?_dropWhile_space hne, List.getLast?_reverse] at h
  exact head?_dropWhile_space h

theorem pyStripList_last {l : List Char} {c : Char} (h : (pyStripList l).getLast? = some c) :
    pyIsSpace c = false := by
  unfold pyStripList at h
  rw [List.getLast?_reverse] at h
  exact head?_dropWhile_space h

theorem lowerStrip_head {l : List Char} {c : Char}
    (h : (pyLowerList (pyStripList l)).head? = some c) : pyIsSpace c = false := by
  unfold pyLowerList at h
  rw [List.head?_map] at h
  cases hx : (pyStripList l).head? with
  | none =>
    rw [hx] at h
    cases h
  | some c0 =>
    rw [hx] at h
    simp only [Option.map_some', Option.some.injEq] at h
    subst h
    rw [pyIsSpace_pyLowerChar]
    exact pyStripList_head hx

theorem lowerStrip_last {l : List Char} {c : Char}
    (h : (pyLowerList (pyStripList l)).getLast? = some c) : pyIsSpace c = false := by
  unfold pyLowerList at h
  rw [List.getLast?_map] at h
  cases hx : (pyStripList l).getLast? with
  | none =>
    rw [hx] at h
    cases h
  | some c0 =>
    rw [hx] at h
    simp only [Option.map_some', Option.some.injEq] at h
    subst h
    rw [pyIsSpace_pyLowerChar]
    exact pyStripList_last hx

theorem lowerStrip_mem {l : List Char} {x : Char} (h : x ∈ pyLowerList (pyStripList l)) :
    (65 ≤ x.toNat && x.toNat ≤ 90) = false := by
  rcases List.mem_map.mp h with ⟨y, -, hxy⟩
  subst hxy
  exact pyLowerChar_not_upper y

theorem lowerStripList_fix (l : List Char) :
    pyLowerList (pyStripList (pyLowerList (pyStripList l))) = pyLowerList (pyStripList l) := by
  rw [pyStripList_eq_self (fun c hc => lowerStrip_head hc) (fun c hc => lowerStrip_last hc)]
  exact map_fixed fun x hx => pyLowerChar_eq_self (lowerStrip_mem hx)

theorem lowerStrip_fix (x : String) :
    pyLower (pyStrip (pyLower (pyStrip x))) = pyLower (pyStrip x) := by
  show String.mk (pyLowerList (pyStripList (pyLowerList (pyStripList x.data)))) =
    String.mk (pyLowerList (pyStripList x.data))
  rw [lowerStripList_fix]

theorem normChars_head {l : List Char} {c : Char} (h : (normChars l).head? = some c) :
    pyIsSpace c = false := by
  unfold normChars at h
  rw [List.head?_map] at h
  cases hx : (pyLowerList (pyStripList l)).head? with
  | none =>
    rw [hx] at h
    cases h
  | some c0 =>
    rw [hx] at h
    simp only [Option.map_some', Option.some.injEq] at h
    subst h
    exact pyIsSpace_underscoreSpaceChar (lowerStrip_head hx)

theorem normChars_last {l : List Char} {c : Char} (h : (normChars l).getLast? = some c) :
    pyIsSpace c = false := by
  unfold normChars at h
  rw [List.getLast?_map] at h
  cases hx : (pyLowerList (pyStripList l)).getLast? with
  | none =>
    rw [hx] at h
    cases h
  | some c0 =>
    rw [hx] at h
    simp only [Option.map_some', Option.some.injEq] at h
    subst h
    exact pyIsSpace_underscoreSpaceChar (lowerStrip_last hx)

theorem normChars_mem {l : List Char} {x : Char} (h : x ∈ normChars l) :
    (65 ≤ x.toNat && x.toNat ≤ 90) = false ∧ x ≠ ' ' := by
  unfold normChars at h
  rcases List.mem_map.mp h with ⟨y, hy, hxy⟩
  subst hxy
  exact ⟨underscoreSpaceChar_not_upper (lowerStrip_mem hy), underscoreSpaceChar_ne_space _⟩

theorem normChars_idem (l : List Char) : normChars (normChars l) = normChars l := by
  show (pyLowerList (pyStripList (normChars l))).map underscoreSpaceChar = normChars l
  rw [pyStripList_eq_self (fun c hc => normChars_head hc) (fun c hc => normChars_last hc)]
  rw [show pyLowerList (normChars l) = normChars l from
    map_fixed fun x hx => pyLowerChar_eq_self (normChars_mem hx).1]
  exact map_fixed fun x hx => by
    unfold underscoreSpaceChar
    rw [if_neg (normChars_mem hx).2]

theorem normName_eq (c : String) : normName c = String.mk (normChars c.data) := by
  unfold normName strReplace
  rw [show (" " : String).data = [' '] from rfl, show ("_" : String).data = ['_'] from rfl]
  rw [replaceList_space]
  rfl

theorem normName_idem (c : String) : normName (normName c) = normName c := by
  rw [normName_eq c, normName_eq (String.mk (normChars c.data))]
  show String.mk (normChars (normChars c.data)) = String.mk (normChars c.data)
  rw [normChars_idem]

theorem normMerchantVal_eq (u : Val) : normMerchantVal u =
    Val.str (if pyLower (pyStrip (pyStr
        (if u.isNa = true then Val.str "unknown_merchant" else u))) = ""
      then "unknown_merchant"
      else pyLower (pyStrip (pyStr
        (if u.isNa = true then Val.str "unknown_merchant" else u)))) := rfl

theorem normMerchantVal_idem (v : Val) :
    normMerchantVal (normMerchantVal v) = normMerchantVal v := by
  have hrepr : ∃ w, normMerchantVal v = Val.str w ∧
      (w = "unknown_merchant" ∨ (w ≠ "" ∧ pyLower (pyStrip w) = w)) := by
    rw [normMerchantVal_eq v]
    by_cases hs :
        pyLower (pyStrip (pyStr (if v.isNa = true then Val.str "unknown_merchant" else v))) = ""
    · exact ⟨"unknown_merchant", by rw [if_pos hs], Or.inl rfl⟩
    · exact ⟨_, by rw [if_neg hs], Or.inr ⟨hs, lowerStrip_fix _⟩⟩
  obtain ⟨w, hw, hcase⟩ := hrepr
  rw [hw]
  rcases hcase with hunk | ⟨hne, hfix⟩
  · subst hunk
    decide
  · have hstep : normMerchantVal (Val.str w) =
        Val.str (if pyLower (pyStrip w) = "" then "unknown_merchant" else pyLower (pyStrip w)) :=
      rfl
    rw [hstep, hfix, if_neg hne]

/-! ## Helper lemmas: the pipeline output as a fixed point -/

theorem colIdxs_append_single_ne {hd : List String} {x name : String} (hne : x ≠ name) :
    colIdxs (hd ++ [x]) name = colIdxs hd name := by
  unfold colIdxs
  rw [colIdxsFrom_append]
  have hz : colIdxsFrom (0 + hd.length) [x] name = [] := by
    simp [colIdxsFrom, hne]
  rw [hz, List.append_nil]

theorem colIdxs_append_single_self {hd : List String} {name : String} (hnot : name ∉ hd) :
    colIdxs (hd ++ [name]) name = [hd.length] := by
  unfold colIdxs
  rw [colIdxsFrom_append]
  have h1 : colIdxsFrom 0 hd name = [] := colIdxs_eq_nil_iff.mpr hnot
  rw [h1]
  simp [colIdxsFrom]

theorem length_removeIdxs_congr {α β : Type} {l1 : List α} {l2 : List β} {idxs : List Nat}
    (h : l1.length = l2.length) :
    (removeIdxs l1 idxs).length = (removeIdxs l2 idxs).length :=
  length_removeIdxsFrom_congr h

theorem getD_append_self {l : List Val} {x d : Val} : (l ++ [x]).getD l.length d = x := by
  rw [getD_eq_getElem?D, List.getElem?_append_right (Nat.le_refl _)]
  simp

theorem getD_setIdxs_mem {l : List Val} {idxs : List Nat} {v d : Val} {j : Nat}
    (hmem : idxs.contains j = true) (hlt : j < l.length) :
    (setIdxs l idxs v).getD j d = v := by
  rw [getD_eq_getElem?D]
  unfold setIdxs
  rw [getElem?_setIdxsFrom, if_pos ⟨by simpa using hmem, hlt⟩]
  rfl

theorem setIdxs_getD_self {l : List Val} {i : Nat} :
    setIdxs l [i] (l.getD i Val.na) = l := by
  apply setIdxsFrom_eq_self
  intro j hj hcon
  have hji : j = i := by
    simp at hcon
    omega
  subst hji
  rw [getD_eq_getElem?D]
  cases hx : l[j]? with
  | none => exact absurd (List.getElem?_eq_none_iff.mp hx) (by omega)
  | some a => rfl

theorem mapCol_eq_self {t : Table} {i : Nat} {f : Val → Val}
    (h : ∀ r ∈ t.rows, setIdxs r [i] (f (r.getD i Val.na)) = r) : t.mapCol i f = t := by
  cases t with
  | mk hd rows =>
    dsimp only [Table.mapCol]
    rw [map_fixed (fun r hr => h r hr)]

theorem mergeDebitCredit_ok_cases {t1 t2 : Table} (h : mergeDebitCredit t1 = .ok t2) :
    ((t1.header.contains "debit" && t1.header.contains "credit") = false ∧ t2 = t1) ∨
    ∃ d0 c0, colIdxs t1.header "debit" = [d0] ∧ colIdxs t1.header "credit" = [c0] ∧
      t2 = ⟨removeIdxs (if (colIdxs t1.header "amount").isEmpty
          then t1.header ++ ["amount"] else t1.header) [d0, c0],
        t1.rows.map (fun r =>
          removeIdxs (if (colIdxs t1.header "amount").isEmpty
            then r ++ [Val.num (ratSub ((cleanValue (r.getD c0 .na)).getD 0)
              ((cleanValue (r.getD d0 .na)).getD 0))]
            else setIdxs r (colIdxs t1.header "amount")
              (Val.num (ratSub ((cleanValue (r.getD c0 .na)).getD 0)
                ((cleanValue (r.getD d0 .na)).getD 0)))) [d0, c0])⟩ := by
  unfold mergeDebitCredit at h
  by_cases hc : (t1.header.contains "debit" && t1.header.contains "credit") = true
  · rw [if_pos hc] at h
    cases hd : colIdxs t1.header "debit" with
    | nil =>
      rw [hd] at h
      simp at h
    | cons d0 dtl =>
      cases dtl with
      | cons d1 dtl2 =>
        rw [hd] at h
        cases hcr : colIdxs t1.header "credit" <;> rw [hcr] at h <;> simp at h
      | nil =>
        rw [hd] at h
        cases hcr : colIdxs t1.header "credit" with
        | nil =>
          rw [hcr] at h
          simp at h
        | cons c0 ctl =>
          cases ctl with
          | cons c1 ctl2 =>
            rw [hcr] at h
            simp at h
          | nil =>
            rw [hcr] at h
            simp only [Except.ok.injEq] at h
            exact Or.inr ⟨d0, c0, rfl, rfl, h.symm⟩
  · rw [if_neg hc] at h
    simp only [Except.ok.injEq] at h
    exact Or.inl ⟨Bool.eq_false_iff.mpr hc, h.symm⟩

theorem mergeDebitCredit_not_both {t1 t2 : Table} (h : mergeDebitCredit t1 = .ok t2)
    (hdm : "debit" ∈ t2.header) (hcm : "credit" ∈ t2.header) : False := by
  rcases mergeDebitCredit_ok_cases h with ⟨hno, heq⟩ | ⟨d0, c0, hd0, hc0, heq⟩
  · subst heq
    rw [show t2.header.contains "debit" = true by simpa using hdm,
      show t2.header.contains "credit" = true by simpa using hcm] at hno
    simp at hno
  · subst heq
    dsimp only at hdm
    rcases mem_removeIdxsFrom.mp hdm with ⟨j, hjno, hjget⟩
    have hjmem := mem_colIdxs.mpr hjget
    by_cases hamt : (colIdxs t1.header "amount").isEmpty = true
    · rw [if_pos hamt, colIdxs_append_single_ne (by decide), hd0] at hjmem
      simp only [List.mem_singleton] at hjmem
      subst hjmem
      simp at hjno
    · rw [if_neg hamt, hd0] at hjmem
      simp only [List.mem_singleton] at hjmem
      subst hjmem
      simp at hjno

theorem mergeDebitCredit_header_sub {t1 t2 : Table} (h : mergeDebitCredit t1 = .ok t2) :
    ∀ x ∈ t2.header, x ∈ t1.header ∨ x = "amount" := by
  rcases mergeDebitCredit_ok_cases h with ⟨-, heq⟩ | ⟨d0, c0, -, -, heq⟩
  · subst heq
    exact fun x hx => Or.inl hx
  · subst heq
    intro x hx
    dsimp only at hx
    rcases mem_removeIdxsFrom.mp hx with ⟨j, -, hjget⟩
    by_cases hamt : (colIdxs t1.header "amount").isEmpty = true
    · rw [if_pos hamt] at hjget
      rcases List.mem_append.mp (List.getElem?_mem hjget) with h1 | h2
      · exact Or.inl h1
      · exact Or.inr (by simpa using h2)
    · rw [if_neg hamt] at hjget
      exact Or.inl (List.getElem?_mem hjget)

theorem normalize_wf {t : Table} (h : t.Wf) : (normalizeColumnNames t).Wf := by
  intro r hr
  dsimp only [normalizeColumnNames] at hr ⊢
  rw [List.length_map]
  exact h r hr

theorem renameCol_wf {t : Table} {old new : String} (h : t.Wf) :
    (renameCol t old new).Wf := by
  intro r hr
  dsimp only [renameCol] at hr ⊢
  rw [List.length_map]
  exact h r hr

theorem mapCol_wf {t : Table} {i : Nat} {f : Val → Val} (h : t.Wf) : (t.mapCol i f).Wf := by
  intro r hr
  dsimp only [Table.mapCol] at hr ⊢
  rcases List.mem_map.mp hr with ⟨r0, hr0, hreq⟩
  subst hreq
  rw [length_setIdxs]
  exact h r0 hr0

theorem mergeDebitCredit_wf {t1 t2 : Table} (hwf : t1.Wf) (h : mergeDebitCredit t1 = .ok t2) :
    t2.Wf := by
  rcases mergeDebitCredit_ok_cases h with ⟨-, heq⟩ | ⟨d0, c0, -, -, heq⟩
  · subst heq
    exact hwf
  · subst heq
    intro r hr
    dsimp only at hr ⊢
    rcases List.mem_map.mp hr with ⟨r0, hr0, hreq⟩
    subst hreq
    apply length_removeIdxs_congr
    by_cases hamt : (colIdxs t1.header "amount").isEmpty = true
    · rw [if_pos hamt, if_pos hamt]
      simp only [List.length_append, List.length_cons, List.length_nil]
      rw [hwf r0 hr0]
    · rw [if_neg hamt, if_neg hamt, length_setIdxs, hwf r0 hr0]

theorem mem_ite_rename {x old new : String} {t : Table} {b : Prop} [Decidable b]
    (hx : x ∈ (if b then renameCol t old new else t).header) : x = new ∨ x ∈ t.header := by
  split at hx
  · rcases mem_rename_elim hx with h1 | ⟨h2, -⟩
    · exact Or.inl h1
    · exact Or.inr h2
  · exact Or.inr hx

theorem mem_t4_trace {t2 : Table} {dc ac x : String}
    (hx : x ∈ (if ac ≠ "amount"
      then renameCol (if dc ≠ "date" then renameCol t2 dc "date" else t2) ac "amount"
      else (if dc ≠ "date" then renameCol t2 dc "date" else t2)).header) :
    x ∈ t2.header ∨ x = "date" ∨ x = "amount" := by
  rcases mem_ite_rename hx with h1 | hx3
  · exact Or.inr (Or.inr h1)
  rcases mem_ite_rename hx3 with h2 | hx2
  · exact Or.inr (Or.inl h2)
  · exact Or.inl hx2

theorem resolveColumns_header_trace {t0 t5 : Table} (h : resolveColumns t0 = .ok t5) :
    ∃ t2, mergeDebitCredit (normalizeColumnNames t0) = .ok t2 ∧
      ∀ x ∈ t5.header, x ∈ t2.header ∨ x = "date" ∨ x = "amount" ∨ x = "merchant" := by
  obtain ⟨-, t2, dc, ac, mc?, hm, -, -, -, ht5⟩ := resolveColumns_ok h
  refine ⟨t2, hm, ?_⟩
  intro x hx
  subst ht5
  have hTmem : ∀ y, y ∈ (if ac ≠ "amount"
      then renameCol (if dc ≠ "date" then renameCol t2 dc "date" else t2) ac "amount"
      else (if dc ≠ "date" then renameCol t2 dc "date" else t2)).header →
      y ∈ t2.header ∨ y = "date" ∨ y = "amount" := fun y hy => mem_t4_trace hy
  cases mc? with
  | some mc =>
    dsimp only at hx
    rcases mem_ite_rename hx with h1 | hx4
    · exact Or.inr (Or.inr (Or.inr h1))
    rcases hTmem x hx4 with h2 | h3 | h4
    · exact Or.inl h2
    · exact Or.inr (Or.inl h3)
    · exact Or.inr (Or.inr (Or.inl h4))
  | none =>
    dsimp only at hx
    by_cases hcon : ((!(if ac ≠ "amount"
        then renameCol (if dc ≠ "date" then renameCol t2 dc "date" else t2) ac "amount"
        else (if dc ≠ "date" then renameCol t2 dc "date" else t2)).header.contains "merchant")
          = true)
    · rw [if_pos hcon] at hx
      dsimp only at hx
      rcases List.mem_append.mp hx with hx4 | hxm
      · rcases hTmem x hx4 with h2 | h3 | h4
        · exact Or.inl h2
        · exact Or.inr (Or.inl h3)
        · exact Or.inr (Or.inr (Or.inl h4))
      · exact Or.inr (Or.inr (Or.inr (by simpa using hxm)))
    · rw [if_neg hcon] at hx
      rcases hTmem x hx with h2 | h3 | h4
      · exact Or.inl h2
      · exact Or.inr (Or.inl h3)
      · exact Or.inr (Or.inr (Or.inl h4))

theorem resolveColumns_wf {t0 t5 : Table} (hwf : t0.Wf) (h : resolveColumns t0 = .ok t5) :
    t5.Wf := by
  obtain ⟨-, t2, dc, ac, mc?, hm, -, -, -, ht5⟩ := resolveColumns_ok h
  have h2 : t2.Wf := mergeDebitCredit_wf (normalize_wf hwf) hm
  have h3 : (if dc ≠ "date" then renameCol t2 dc "date" else t2).Wf := by
    split
    · exact renameCol_wf h2
    · exact h2
  have h4 : (if ac ≠ "amount"
      then renameCol (if dc ≠ "date" then renameCol t2 dc "date" else t2) ac "amount"
      else (if dc ≠ "date" then renameCol t2 dc "date" else t2)).Wf := by
    split
    · exact renameCol_wf h3
    · exact h3
  subst ht5
  cases mc? with
  | some mc =>
    dsimp only
    by_cases hmcm : mc ≠ "merchant"
    · rw [if_pos hmcm]
      exact renameCol_wf h4
    · rw [if_neg hmcm]
      exact h4
  | none =>
    dsimp only
    by_cases hcon : ((!(if ac ≠ "amount"
        then renameCol (if dc ≠ "date" then renameCol t2 dc "date" else t2) ac "amount"
        else (if dc ≠ "date" then renameCol t2 dc "date" else t2)).header.contains "merchant")
          = true)
    · rw [if_pos hcon]
      intro r hr
      dsimp only at hr ⊢
      rcases List.mem_map.mp hr with ⟨r0, hr0, hreq⟩
      subst hreq
      simp only [List.length_append, List.length_cons, List.length_nil]
      rw [h4 r0 hr0]
    · rw [if_neg hcon]
      exact h4

theorem cleanColumns_wf {t5 t8 : Table} {di ai : Nat} (hwf : t5.Wf)
    (h : cleanColumns t5 = .ok (t8, di, ai)) : t8.Wf := by
  obtain ⟨mi, -, -, -, ht8⟩ := cleanColumns_ok h
  subst ht8
  exact mapCol_wf (mapCol_wf (mapCol_wf hwf))

theorem parseAndCleanCsv_ok {t out : Table} {summ : Summary}
    (h : parseAndCleanCsv t = .ok (out, summ)) :
    ∃ t5 t8 di ai, resolveColumns t = .ok t5 ∧ cleanColumns t5 = .ok (t8, di, ai) ∧
      finalizeRows t.rows.length t8 di ai = (out, summ) := by
  unfold parseAndCleanCsv at h
  cases hrc : resolveColumns t with
  | error e =>
    rw [hrc] at h
    simp [Bind.bind, Except.bind] at h
  | ok t5 =>
    rw [hrc] at h
    simp only [Bind.bind, Except.bind] at h
    cases hcc : cleanColumns t5 with
    | error e =>
      rw [hcc] at h
      simp at h
    | ok trip =>
      obtain ⟨t8, di, ai⟩ := trip
      rw [hcc] at h
      simp only [Except.ok.injEq] at h
      exact ⟨t5, t8, di, ai, rfl, hcc, h⟩

theorem colIdxs_out_of_t8 {t8 : Table} {orig di ai : Nat} {name : String}
    (hname : name ≠ "is_suspicious") :
    colIdxs (finalizeRows orig t8 di ai).1.header name = colIdxs t8.header name := by
  rw [finalizeRows_header]
  split_ifs
  · exact colIdxs_append_single_ne (fun hx => hname hx.symm)
  · rfl

theorem finalizeRows_header_cases {t8 : Table} {orig di ai : Nat} :
    ∀ x ∈ (finalizeRows orig t8 di ai).1.header, x ∈ t8.header ∨ x = "is_suspicious" := by
  intro x hx
  rw [finalizeRows_header] at hx
  split_ifs at hx
  · rcases List.mem_append.mp hx with h1 | h2
    · exact Or.inl h1
    · exact Or.inr (by simpa using h2)
  · exact Or.inl hx

theorem addSuspicious_facts {u : Table} {ai mi : Nat}
    (hwf : ∀ r ∈ u.rows, r.length = u.header.length ∧
      normMerchantVal (r.getD mi Val.na) = r.getD mi Val.na)
    (hailt : ai < u.header.length)
    (hmilt : mi < u.header.length)
    (hgetai : u.header[ai]? = some "amount")
    (hgetmi : u.header[mi]? = some "merchant") :
    (∀ r ∈ (addSuspicious u ai).rows, r.length = (addSuspicious u ai).header.length ∧
      normMerchantVal (r.getD mi Val.na) = r.getD mi Val.na ∧
      ∀ j ∈ colIdxs (addSuspicious u ai).header "is_suspicious",
        r.getD j Val.na = Val.bool (ratIsNeg (rowAmount r ai))) ∧
    colIdxs (addSuspicious u ai).header "is_suspicious" ≠ [] := by
  by_cases hsus : (colIdxs u.header "is_suspicious").isEmpty = true
  · have hnotmem : "is_suspicious" ∉ u.header := colIdxs_eq_nil_iff.mp (by
      cases hx : colIdxs u.header "is_suspicious" with
      | nil => rfl
      | cons a tl =>
        rw [hx] at hsus
        cases hsus)
    have hhdr : (addSuspicious u ai).header = u.header ++ ["is_suspicious"] := by
      rw [addSuspicious_header, if_pos hsus]
    have hrows : (addSuspicious u ai).rows =
        u.rows.map (fun r => r ++ [Val.bool (ratIsNeg (rowAmount r ai))]) := by
      rw [addSuspicious_rows, if_pos hsus]
    have hidx : colIdxs (addSuspicious u ai).header "is_suspicious" = [u.header.length] := by
      rw [hhdr]
      exact colIdxs_append_single_self hnotmem
    constructor
    · intro r hr
      rw [hrows] at hr
      rcases List.mem_map.mp hr with ⟨r0, hr0, hreq⟩
      obtain ⟨hlen0, hmer0⟩ := hwf r0 hr0
      subst hreq
      have hra : rowAmount (r0 ++ [Val.bool (ratIsNeg (rowAmount r0 ai))]) ai =
          rowAmount r0 ai := by
        unfold rowAmount
        rw [getD_append_lt (by omega)]
      refine ⟨?_, ?_, ?_⟩
      · rw [hhdr]
        simp only [List.length_append, List.length_cons, List.length_nil]
        omega
      · rw [getD_append_lt (by omega)]
        exact hmer0
      · intro j hj
        rw [hidx] at hj
        simp only [List.mem_singleton] at hj
        subst hj
        have hget : (r0 ++ [Val.bool (ratIsNeg (rowAmount r0 ai))]).getD u.header.length Val.na
            = Val.bool (ratIsNeg (rowAmount r0 ai)) := by
          rw [← hlen0]
          exact getD_append_self
        rw [hget, hra]
    · rw [hidx]
      simp
  · have hsusf : (colIdxs u.header "is_suspicious").isEmpty = false := by
      cases hx : (colIdxs u.header "is_suspicious").isEmpty
      · rfl
      · exact absurd hx hsus
    have hidxne : colIdxs u.header "is_suspicious" ≠ [] := by
      intro he
      rw [he] at hsusf
      simp at hsusf
    have hhdr : (addSuspicious u ai).header = u.header := by
      rw [addSuspicious_header, if_neg hsus]
    have hrows : (addSuspicious u ai).rows = u.rows.map (fun r =>
        setIdxs r (colIdxs u.header "is_suspicious") (Val.bool (ratIsNeg (rowAmount r ai)))) := by
      rw [addSuspicious_rows, if_neg hsus]
    have hainotin : (colIdxs u.header "is_suspicious").contains ai = false := by
      cases hx : (colIdxs u.header "is_suspicious").contains ai
      · rfl
      · exfalso
        have hmem : ai ∈ colIdxs u.header "is_suspicious" := by simpa using hx
        have hg := mem_colIdxs.mp hmem
        rw [hgetai] at hg
        simp at hg
    have hminotin : (colIdxs u.header "is_suspicious").contains mi = false := by
      cases hx : (colIdxs u.header "is_suspicious").contains mi
      · rfl
      · exfalso
        have hmem : mi ∈ colIdxs u.header "is_suspicious" := by simpa using hx
        have hg := mem_colIdxs.mp hmem
        rw [hgetmi] at hg
        simp at hg
    constructor
    · intro r hr
      rw [hrows] at hr
      rcases List.mem_map.mp hr with ⟨r0, hr0, hreq⟩
      obtain ⟨hlen0, hmer0⟩ := hwf r0 hr0
      subst hreq
      have hra : rowAmount (setIdxs r0 (colIdxs u.header "is_suspicious")
          (Val.bool (ratIsNeg (rowAmount r0 ai)))) ai = rowAmount r0 ai := by
        unfold rowAmount
        rw [getD_setIdxs_notmem hainotin]
      refine ⟨?_, ?_, ?_⟩
      · rw [hhdr, length_setIdxs]
        exact hlen0
      · rw [getD_setIdxs_notmem hminotin]
        exact hmer0
      · intro j hj
        rw [hhdr] at hj
        have hjlt : j < u.header.length := by
          rcases List.getElem?_eq_some_iff.mp (mem_colIdxs.mp hj) with ⟨hlt, -⟩
          exact hlt
        rw [getD_setIdxs_mem (by simpa using hj) (by omega), hra]
    · rw [hhdr]
      exact hidxne

theorem finalizeRows_fixed_facts {orig : Nat} {t8 : Table} {di ai mi : Nat}
    (hwf : t8.Wf)
    (hai : colIdxs t8.header "amount" = [ai])
    (hmi : colIdxs t8.header "merchant" = [mi])
    (hmer : ∀ r ∈ t8.rows, normMerchantVal (r.getD mi Val.na) = r.getD mi Val.na) :
    (finalizeRows orig t8 di ai).1.Wf ∧
    List.Sorted (fun r1 r2 => dateLe di r1 r2 = true) (finalizeRows orig t8 di ai).1.rows ∧
    colIdxs (finalizeRows orig t8 di ai).1.header "is_suspicious" ≠ [] ∧
    (∀ r ∈ (finalizeRows orig t8 di ai).1.rows,
      normMerchantVal (r.getD mi Val.na) = r.getD mi Val.na ∧
      ∀ j ∈ colIdxs (finalizeRows orig t8 di ai).1.header "is_suspicious",
        r.getD j Val.na = Val.bool (ratIsNeg (rowAmount r ai))) := by
  have hmilt : mi < t8.header.length := by
    rcases List.getElem?_eq_some_iff.mp (colIdxs_singleton_getElem hmi).1 with ⟨hlt, -⟩
    exact hlt
  have hailt : ai < t8.header.length := by
    rcases List.getElem?_eq_some_iff.mp (colIdxs_singleton_getElem hai).1 with ⟨hlt, -⟩
    exact hlt
  have haimi : ai ≠ mi := by
    intro hcq
    have hx := (colIdxs_singleton_getElem hai).1
    rw [hcq, (colIdxs_singleton_getElem hmi).1] at hx
    simp at hx
  have h11 : ∀ r ∈ (((t8.rows.filter
        (fun r => !(r.getD di Val.na).isNa && !(r.getD ai Val.na).isNa)).map
      (fun r => setIdxs r [ai] (toNumericVal (r.getD ai Val.na)))).filter
        (fun r => !(r.getD ai Val.na).isNa)),
      r.length = t8.header.length ∧
      normMerchantVal (r.getD mi Val.na) = r.getD mi Val.na := by
    intro r hr
    rcases List.mem_filter.mp hr with ⟨h10, -⟩
    rcases List.mem_map.mp h10 with ⟨r9, h9, hreq⟩
    rcases List.mem_filter.mp h9 with ⟨h8, -⟩
    subst hreq
    refine ⟨by rw [length_setIdxs]; exact hwf r9 h8, ?_⟩
    rw [getD_setIdxs_notmem (contains_singleton_false (Ne.symm haimi))]
    exact hmer r9 h8
  have hadd := @addSuspicious_facts
    ⟨t8.header, ((t8.rows.filter
        (fun r => !(r.getD di Val.na).isNa && !(r.getD ai Val.na).isNa)).map
      (fun r => setIdxs r [ai] (toNumericVal (r.getD ai Val.na)))).filter
        (fun r => !(r.getD ai Val.na).isNa)⟩
    ai mi (fun r hr => h11 r hr) hailt hmilt
    (colIdxs_singleton_getElem hai).1 (colIdxs_singleton_getElem hmi).1
  obtain ⟨hmemfacts, hidxne⟩ := hadd
  have hrowseq : (finalizeRows orig t8 di ai).1.rows =
      ((addSuspicious ⟨t8.header, ((t8.rows.filter
        (fun r => !(r.getD di Val.na).isNa && !(r.getD ai Val.na).isNa)).map
      (fun r => setIdxs r [ai] (toNumericVal (r.getD ai Val.na)))).filter
        (fun r => !(r.getD ai Val.na).isNa)⟩ ai).rows).insertionSort
      (fun r1 r2 => dateLe di r1 r2 = true) := rfl
  have hhdreq : (finalizeRows orig t8 di ai).1.header =
      (addSuspicious ⟨t8.header, ((t8.rows.filter
        (fun r => !(r.getD di Val.na).isNa && !(r.getD ai Val.na).isNa)).map
      (fun r => setIdxs r [ai] (toNumericVal (r.getD ai Val.na)))).filter
        (fun r => !(r.getD ai Val.na).isNa)⟩ ai).header := rfl
  refine ⟨?_, ?_, ?_, ?_⟩
  · intro r hr
    rw [hrowseq] at hr
    have hr2 := (List.perm_insertionSort _ _).mem_iff.mp hr
    rw [hhdreq]
    exact (hmemfacts r hr2).1
  · rw [hrowseq]
    exact List.sorted_insertionSort _ _
  · rw [hhdreq]
    exact hidxne
  · intro r hr
    rw [hrowseq] at hr
    have hr2 := (List.perm_insertionSort _ _).mem_iff.mp hr
    obtain ⟨-, hmer2, hsus2⟩ := hmemfacts r hr2
    refine ⟨hmer2, ?_⟩
    intro j hj
    rw [hhdreq] at hj
    exact hsus2 j hj

/-- Everything a successful run establishes about its output table: the
canonical labels are unique, `is_suspicious` is present, every label is a
fixed point of the name normalizer, `debit`/`credit` never survive
together, rows are rectangular and date-sorted, and every row carries a
parsed date, a parsed amount, a normalized merchant and the recomputed
suspicious flag. -/
theorem parse_output_shape {t out : Table} {summ : Summary} (hwf : t.Wf)
    (h : parseAndCleanCsv t = .ok (out, summ)) :
    ∃ di ai mi,
      colIdxs out.header "date" = [di] ∧
      colIdxs out.header "amount" = [ai] ∧
      colIdxs out.header "merchant" = [mi] ∧
      colIdxs out.header "is_suspicious" ≠ [] ∧
      (∀ x ∈ out.header, normName x = x) ∧
      ((out.header.contains "debit" && out.header.contains "credit") = false) ∧
      out.Wf ∧
      List.Sorted (fun r1 r2 => dateLe di r1 r2 = true) out.rows ∧
      ∀ r ∈ out.rows,
        (∃ d, r.getD di Val.na = Val.date d) ∧
        (∃ q, r.getD ai Val.na = Val.num q) ∧
        normMerchantVal (r.getD mi Val.na) = r.getD mi Val.na ∧
        ∀ j ∈ colIdxs out.header "is_suspicious",
          r.getD j Val.na = Val.bool (ratIsNeg (rowAmount r ai)) := by
  obtain ⟨t5, t8, di, ai, hrc, hcc, hfin⟩ := parseAndCleanCsv_ok h
  obtain ⟨mi, hdi5, hai5, hmi5, ht8⟩ := cleanColumns_ok hcc
  have hwf5 : t5.Wf := resolveColumns_wf hwf hrc
  have hwf8 : t8.Wf := cleanColumns_wf hwf5 hcc
  have hhdr8 : t8.header = t5.header := by
    rw [ht8]
    rfl
  have hdi8 : colIdxs t8.header "date" = [di] := by rw [hhdr8]; exact hdi5
  have hai8 : colIdxs t8.header "amount" = [ai] := by rw [hhdr8]; exact hai5
  have hmi8 : colIdxs t8.header "merchant" = [mi] := by rw [hhdr8]; exact hmi5
  have hgetdi := colIdxs_singleton_getElem hdi8
  have hgetai := colIdxs_singleton_getElem hai8
  have hgetmi := colIdxs_singleton_getElem hmi8
  have hdiai : di ≠ ai := by
    intro hcq
    have hx := hgetdi.1
    rw [hcq, hgetai.1] at hx
    simp at hx
  have hmilt5 : mi < t5.header.length := by
    rcases List.getElem?_eq_some_iff.mp (colIdxs_singleton_getElem hmi5).1 with ⟨hlt, -⟩
    exact hlt
  -- the merchant column of t8 holds fixed points of the normalizer
  have hmer8 : ∀ r ∈ t8.rows, normMerchantVal (r.getD mi Val.na) = r.getD mi Val.na := by
    intro r8 hr8
    rw [ht8] at hr8
    dsimp only [Table.mapCol] at hr8
    rcases List.mem_map.mp hr8 with ⟨r7, hr7, hreq⟩
    have hlen7 : r7.length = t5.header.length := by
      rcases List.mem_map.mp hr7 with ⟨r6, hr6, hreq7⟩
      rcases List.mem_map.mp hr6 with ⟨r5, hr5, hreq6⟩
      subst hreq7
      subst hreq6
      rw [length_setIdxs, length_setIdxs]
      exact hwf5 r5 hr5
    subst hreq
    rw [getD_setIdxs_self, if_pos (by omega)]
    exact normMerchantVal_idem _
  -- the date column of t8 is NaT-or-timestamp
  have hdshape : ∀ r ∈ t8.rows,
      (r.getD di Val.na).isNa = true ∨ ∃ d, r.getD di Val.na = Val.date d := by
    intro r8 hr8
    rw [ht8] at hr8
    dsimp only [Table.mapCol] at hr8
    rcases List.mem_map.mp hr8 with ⟨r7, hr7, hreq⟩
    rcases List.mem_map.mp hr7 with ⟨r6, hr6, hreq7⟩
    rcases List.mem_map.mp hr6 with ⟨r5, hr5, hreq6⟩
    have hdimi : di ≠ mi := by
      intro hcq
      have hx := hgetdi.1
      rw [hcq, hgetmi.1] at hx
      simp at hx
    have hstep3 : r8.getD di Val.na = r7.getD di Val.na := by
      rw [← hreq]
      exact getD_setIdxs_notmem (contains_singleton_false hdimi)
    have hstep2 : r7.getD di Val.na = r6.getD di Val.na := by
      rw [← hreq7]
      exact getD_setIdxs_notmem (contains_singleton_false hdiai)
    have hstep1 : r6.getD di Val.na =
        if di < r5.length then pdToDatetime (r5.getD di Val.na) else Val.na := by
      rw [← hreq6]
      exact getD_setIdxs_self
    rw [hstep3, hstep2, hstep1]
    by_cases hlt : di < r5.length
    · rw [if_pos hlt]
      exact pdToDatetime_na_or_date _
    · rw [if_neg hlt]
      exact Or.inl rfl
  have hfacts := @finalizeRows_fixed_facts t.rows.length t8 di ai mi
    hwf8 hai8 hmi8 hmer8
  have hdatenum := @finalizeRows_rows_mem t.rows.length t8 di ai hdiai hdi8 hai8 hdshape
  have hout : (finalizeRows t.rows.length t8 di ai).1 = out := by
    rw [Prod.ext_iff] at hfin
    exact hfin.1
  -- header membership trace
  have htrace := resolveColumns_header_trace hrc
  obtain ⟨t2, hm, htr⟩ := htrace
  have hnormfix : ∀ x ∈ (finalizeRows t.rows.length t8 di ai).1.header, normName x = x := by
    intro x hx
    rcases finalizeRows_header_cases x hx with hx8 | hxs
    · rw [hhdr8] at hx8
      rcases htr x hx8 with hx2 | hxd | hxa | hxm
      · rcases mergeDebitCredit_header_sub hm x hx2 with hx1 | hxamt
        · rcases List.mem_map.mp hx1 with ⟨y, -, hxy⟩
          rw [← hxy]
          exact normName_idem y
        · rw [hxamt]
          decide
      · rw [hxd]
        decide
      · rw [hxa]
        decide
      · rw [hxm]
        decide
    · rw [hxs]
      decide
  have hnotboth : ((finalizeRows t.rows.length t8 di ai).1.header.contains "debit" &&
      (finalizeRows t.rows.length t8 di ai).1.header.contains "credit") = false := by
    by_cases hdm : "debit" ∈ (finalizeRows t.rows.length t8 di ai).1.header
    · by_cases hcm : "credit" ∈ (finalizeRows t.rows.length t8 di ai).1.header
      · exfalso
        have hdm2 : "debit" ∈ t2.header := by
          rcases finalizeRows_header_cases _ hdm with hx8 | hxs
          · rw [hhdr8] at hx8
            rcases htr _ hx8 with hx2 | hxd | hxa | hxm
            · exact hx2
            · exact absurd hxd (by decide)
            · exact absurd hxa (by decide)
            · exact absurd hxm (by decide)
          · exact absurd hxs (by decide)
        have hcm2 : "credit" ∈ t2.header := by
          rcases finalizeRows_header_cases _ hcm with hx8 | hxs
          · rw [hhdr8] at hx8
            rcases htr _ hx8 with hx2 | hxd | hxa | hxm
            · exact hx2
            · exact absurd hxd (by decide)
            · exact absurd hxa (by decide)
            · exact absurd hxm (by decide)
          · exact absurd hxs (by decide)
        exact mergeDebitCredit_not_both hm hdm2 hcm2
      · have : (finalizeRows t.rows.length t8 di ai).1.header.contains "credit" = false := by
          cases hx : (finalizeRows t.rows.length t8 di ai).1.header.contains "credit"
          · rfl
          · exact absurd (by simpa using hx) hcm
        rw [this, Bool.and_false]
    · have : (finalizeRows t.rows.length t8 di ai).1.header.contains "debit" = false := by
        cases hx : (finalizeRows t.rows.length t8 di ai).1.header.contains "debit"
        · rfl
        · exact absurd (by simpa using hx) hdm
      rw [this, Bool.false_and]
  refine ⟨di, ai, mi, ?_, ?_, ?_, ?_, ?_, ?_, ?_, ?_, ?_⟩
  · rw [← hout]
    rw [colIdxs_out_of_t8 (by decide)]
    exact hdi8
  · rw [← hout]
    rw [colIdxs_out_of_t8 (by decide)]
    exact hai8
  · rw [← hout]
    rw [colIdxs_out_of_t8 (by decide)]
    exact hmi8
  · rw [← hout]
    exact hfacts.2.2.1
  · rw [← hout]
    exact hnormfix
  · rw [← hout]
    exact hnotboth
  · rw [← hout]
    exact hfacts.1
  · rw [← hout]
    exact hfacts.2.1
  · rw [← hout]
    intro r hr
    refine ⟨(hdatenum r hr).1, (hdatenum r hr).2, (hfacts.2.2.2 r hr).1, ?_⟩
    intro j hj
    exact (hfacts.2.2.2 r hr).2 j hj

theorem table_ext {a b : Table} (h1 : a.header = b.header) (h2 : a.rows = b.rows) :
    a = b := by
  cases a
  cases b
  cases h1
  cases h2
  rfl

theorem normalizeColumnNames_eq_self {u : Table} (h : ∀ x ∈ u.header, normName x = x) :
    normalizeColumnNames u = u :=
  table_ext (map_fixed h) rfl

theorem mergeDebitCredit_eq_self {u : Table}
    (h : (u.header.contains "debit" && u.header.contains "credit") = false) :
    mergeDebitCredit u = .ok u := by
  unfold mergeDebitCredit
  rw [h, if_neg Bool.false_ne_true]

/-- On a table that is a fixed point of normalization and carries the
canonical columns, schema resolution is the identity. -/
theorem resolveColumns_fixed {u : Table}
    (hsafe : (isSafeCsv u).1 = true)
    (hnorm : normalizeColumnNames u = u)
    (hnb : mergeDebitCredit u = .ok u)
    (hd : "date" ∈ u.header) (ha : "amount" ∈ u.header) (hmer : "merchant" ∈ u.header) :
    resolveColumns u = .ok u := by
  unfold resolveColumns
  cases hps : isSafeCsv u with
  | mk ok msg =>
    rw [hps] at hsafe
    cases ok with
    | false => simp at hsafe
    | true =>
      dsimp only
      rw [if_neg (by decide : ¬((!true) = true))]
      rw [hnorm, hnb]
      simp only [Bind.bind, Except.bind]
      rw [inferDateColumn_of_date_mem hd]
      dsimp only
      rw [inferAmountColumn_of_amount_mem ha]
      dsimp only
      rw [if_neg (show ¬("date" ≠ "date") by simp),
        if_neg (show ¬("amount" ≠ "amount") by simp)]
      rw [inferMerchantColumn_of_merchant_mem hmer]
      dsimp only
      rw [if_neg (show ¬("merchant" ≠ "merchant") by simp)]
      rfl

/-- On a table whose three canonical columns are unique and already
cleaned, the cell-cleaning stage is the identity. -/
theorem cleanColumns_fixed {u : Table} {di ai mi : Nat}
    (hdi : colIdxs u.header "date" = [di]) (hai : colIdxs u.header "amount" = [ai])
    (hmi : colIdxs u.header "merchant" = [mi])
    (h1 : u.mapCol di pdToDatetime = u)
    (h2 : u.mapCol ai cleanedVal = u)
    (h3 : u.mapCol mi normMerchantVal = u) :
    cleanColumns u = .ok (u, di, ai) := by
  unfold cleanColumns Table.uniqueIdx
  simp only [Table.mapCol_header]
  rw [hdi, hai, hmi]
  simp only [Bind.bind, Except.bind]
  rw [h1, h2, h3]

/-- On a table whose rows all carry parsed dates and amounts, a correct
suspicious flag, and are already date-sorted, the row-finalization stage
returns the table unchanged. -/
theorem finalizeRows_fixed {u : Table} {di ai : Nat} {orig : Nat}
    (hdate : ∀ r ∈ u.rows, ∃ d, r.getD di Val.na = Val.date d)
    (hamt : ∀ r ∈ u.rows, ∃ q, r.getD ai Val.na = Val.num q)
    (hsusne : colIdxs u.header "is_suspicious" ≠ [])
    (hsusCell : ∀ r ∈ u.rows, ∀ j ∈ colIdxs u.header "is_suspicious",
      r.getD j Val.na = Val.bool (ratIsNeg (rowAmount r ai)))
    (hwf : u.Wf)
    (hsorted : List.Sorted (fun r1 r2 => dateLe di r1 r2 = true) u.rows) :
    (finalizeRows orig u di ai).1 = u := by
  have h9 : u.rows.filter (fun r => !(r.getD di Val.na).isNa && !(r.getD ai Val.na).isNa)
      = u.rows := by
    rw [List.filter_eq_self]
    intro r hr
    obtain ⟨d, hdc⟩ := hdate r hr
    obtain ⟨q, hq⟩ := hamt r hr
    rw [hdc, hq]
    rfl
  have h10 : u.rows.map (fun r => setIdxs r [ai] (toNumericVal (r.getD ai Val.na)))
      = u.rows := by
    apply map_fixed
    intro r hr
    obtain ⟨q, hq⟩ := hamt r hr
    have hstep : toNumericVal (r.getD ai Val.na) = r.getD ai Val.na := by
      rw [hq]
      rfl
    rw [hstep]
    exact setIdxs_getD_self
  have h11 : u.rows.filter (fun r => !(r.getD ai Val.na).isNa) = u.rows := by
    rw [List.filter_eq_self]
    intro r hr
    obtain ⟨q, hq⟩ := hamt r hr
    rw [hq]
    rfl
  have hsusf : (colIdxs u.header "is_suspicious").isEmpty = false := by
    cases hx : colIdxs u.header "is_suspicious" with
    | nil => exact absurd hx hsusne
    | cons a tl => rfl
  have hh : (addSuspicious ⟨u.header, u.rows⟩ ai).header = u.header := by
    rw [addSuspicious_header]
    dsimp only
    rw [if_neg (by rw [hsusf]; exact Bool.false_ne_true)]
  have hrws : (addSuspicious ⟨u.header, u.rows⟩ ai).rows = u.rows := by
    rw [addSuspicious_rows]
    dsimp only
    rw [if_neg (by rw [hsusf]; exact Bool.false_ne_true)]
    apply map_fixed
    intro r hr
    apply setIdxsFrom_eq_self
    intro j hj hcon
    have hjm : j ∈ colIdxs u.header "is_suspicious" := by simpa using hcon
    have hcell := hsusCell r hr j hjm
    rw [getD_eq_getElem?D] at hcell
    cases hx : r[j]? with
    | none => exact absurd (List.getElem?_eq_none_iff.mp hx) (by omega)
    | some a =>
      rw [hx] at hcell
      simp only [Option.getD_some] at hcell
      rw [hcell]
  have hadd : addSuspicious ⟨u.header, u.rows⟩ ai = u := table_ext hh hrws
  have hfr : (finalizeRows orig u di ai).1 =
      ⟨(addSuspicious ⟨u.header,
          (((u.rows.filter (fun r => !(r.getD di Val.na).isNa && !(r.getD ai Val.na).isNa)).map
            (fun r => setIdxs r [ai] (toNumericVal (r.getD ai Val.na)))).filter
              (fun r => !(r.getD ai Val.na).isNa))⟩ ai).header,
        (addSuspicious ⟨u.header,
          (((u.rows.filter (fun r => !(r.getD di Val.na).isNa && !(r.getD ai Val.na).isNa)).map
            (fun r => setIdxs r [ai] (toNumericVal (r.getD ai Val.na)))).filter
              (fun r => !(r.getD ai Val.na).isNa))⟩ ai).rows.insertionSort
          (fun r1 r2 => dateLe di r1 r2 = true)⟩ := rfl
  rw [hfr, h9, h10, h11, hadd]
  rw [hsorted.insertionSort_eq]

/-- Removing the same index set from two equal-length lists keeps the
surviving positions aligned: every entry of one result sits at the same
original index as the corresponding entry of the other. -/
theorem removeIdxsFrom_getElem?_pair {α β : Type} {off : Nat} {l1 : List α} {l2 : List β}
    {idxs : List Nat} (hlen : l1.length = l2.length) {j : Nat}
    (hj : j < (removeIdxsFrom off l1 idxs).length) :
    ∃ k, k < l1.length ∧ idxs.contains (off + k) = false ∧
      (removeIdxsFrom off l1 idxs)[j]? = l1[k]? ∧
      (removeIdxsFrom off l2 idxs)[j]? = l2[k]? := by
  induction l1 generalizing l2 off j with
  | nil => simp [removeIdxsFrom] at hj
  | cons x rest ih =>
    cases l2 with
    | nil => simp at hlen
    | cons y rest2 =>
      simp only [List.length_cons] at hlen
      have hlen2 : rest.length = rest2.length := by omega
      have hrw1 : removeIdxsFrom off (x :: rest) idxs =
          if idxs.contains off then removeIdxsFrom (off + 1) rest idxs
          else x :: removeIdxsFrom (off + 1) rest idxs := rfl
      have hrw2 : removeIdxsFrom off (y :: rest2) idxs =
          if idxs.contains off then removeIdxsFrom (off + 1) rest2 idxs
          else y :: removeIdxsFrom (off + 1) rest2 idxs := rfl
      cases hc : idxs.contains off with
      | true =>
        rw [hrw1, hc, if_pos rfl] at hj
        obtain ⟨k, hk, hkc, h1, h2⟩ := ih hlen2 hj
        refine ⟨k + 1, ?_, ?_, ?_, ?_⟩
        · simp only [List.length_cons]
          omega
        · have harith : off + (k + 1) = off + 1 + k := by omega
          rw [harith]
          exact hkc
        · rw [hrw1, hc, if_pos rfl, List.getElem?_cons_succ]
          exact h1
        · rw [hrw2, hc, if_pos rfl, List.getElem?_cons_succ]
          exact h2
      | false =>
        cases j with
        | zero =>
          refine ⟨0, by simp, by rw [Nat.add_zero]; exact hc, ?_, ?_⟩
          · rw [hrw1, hc, if_neg Bool.false_ne_true]
            simp
          · rw [hrw2, hc, if_neg Bool.false_ne_true]
            simp
        | succ j2 =>
          rw [hrw1, hc, if_neg Bool.false_ne_true] at hj
          simp only [List.length_cons] at hj
          have hj2 : j2 < (removeIdxsFrom (off + 1) rest idxs).length := by omega
          obtain ⟨k, hk, hkc, h1, h2⟩ := ih hlen2 hj2
          refine ⟨k + 1, ?_, ?_, ?_, ?_⟩
          · simp only [List.length_cons]
            omega
          · have harith : off + (k + 1) = off + 1 + k := by omega
            rw [harith]
            exact hkc
          · rw [hrw1, hc, if_neg Bool.false_ne_true, List.getElem?_cons_succ,
              List.getElem?_cons_succ]
            exact h1
          · rw [hrw2, hc, if_neg Bool.false_ne_true, List.getElem?_cons_succ,
              List.getElem?_cons_succ]
            exact h2

/-! ## Theorems -/

/-- Claim C1: every table the pipeline accepts yields a transaction
table whose rows all carry a non-null parsed date and a non-null parsed
numeric amount in the canonical columns (rows failing either parse are
dropped, never retained), and a summary with
`invalid_rows + valid_rows = total_rows`, where `total_rows` is the
input row count and `valid_rows` the output row count. -/
theorem normalize_output_invariants :
    ∀ (t out : Table) (s : Summary),
      parseAndCleanCsv t = .ok (out, s) →
      ∃ di ai, colIdxs out.header "date" = [di] ∧ colIdxs out.header "amount" = [ai] ∧
        (∀ r ∈ out.rows, (∃ d, r.getD di Val.na = Val.date d) ∧
          (∃ q, r.getD ai Val.na = Val.num q)) ∧
        s.invalid_rows + s.valid_rows = s.total_rows ∧
        s.total_rows = t.rows.length ∧ s.valid_rows = out.rows.length := by
  intro t out s h
  unfold parseAndCleanCsv at h
  cases hrc : resolveColumns t with
  | error e =>
    rw [hrc] at h
    simp [Bind.bind, Except.bind] at h
  | ok t5 =>
    rw [hrc] at h
    simp only [Bind.bind, Except.bind] at h
    cases hcc : cleanColumns t5 with
    | error e =>
      rw [hcc] at h
      simp at h
    | ok trip =>
      obtain ⟨t8, di, ai⟩ := trip
      rw [hcc] at h
      simp only [Except.ok.injEq] at h
      obtain ⟨mi, hdi5, hai5, hmi5, ht8⟩ := cleanColumns_ok hcc
      have hhdr8 : t8.header = t5.header := by rw [ht8]; rfl
      have hdi8 : colIdxs t8.header "date" = [di] := by rw [hhdr8]; exact hdi5
      have hai8 : colIdxs t8.header "amount" = [ai] := by rw [hhdr8]; exact hai5
      have hmi8 : colIdxs t8.header "merchant" = [mi] := by rw [hhdr8]; exact hmi5
      have hgetdi := colIdxs_singleton_getElem hdi8
      have hgetai := colIdxs_singleton_getElem hai8
      have hgetmi := colIdxs_singleton_getElem hmi8
      have hdiai : di ≠ ai := by
        intro hc
        have hx := hgetdi.1
        rw [hc, hgetai.1] at hx
        simp at hx
      have hdimi : di ≠ mi := by
        intro hc
        have hx := hgetdi.1
        rw [hc, hgetmi.1] at hx
        simp at hx
      have hdshape : ∀ r ∈ t8.rows,
          (r.getD di Val.na).isNa = true ∨ ∃ d, r.getD di Val.na = Val.date d := by
        intro r8 hr8
        rw [ht8] at hr8
        simp only [Table.mapCol, List.mem_map] at hr8
        rcases hr8 with ⟨r7, ⟨r6, ⟨r5, hr5, hr6eq⟩, hr7eq⟩, hr8eq⟩
        have hstep3 : r8.getD di Val.na = r7.getD di Val.na := by
          rw [← hr8eq]
          exact getD_setIdxs_notmem (contains_singleton_false hdimi)
        have hstep2 : r7.getD di Val.na = r6.getD di Val.na := by
          rw [← hr7eq]
          exact getD_setIdxs_notmem (contains_singleton_false hdiai)
        have hstep1 : r6.getD di Val.na =
            if di < r5.length then pdToDatetime (r5.getD di Val.na) else Val.na := by
          rw [← hr6eq]
          exact getD_setIdxs_self
        rw [hstep3, hstep2, hstep1]
        by_cases hlt : di < r5.length
        · rw [if_pos hlt]
          exact pdToDatetime_na_or_date _
        · rw [if_neg hlt]
          exact Or.inl rfl
      have hle : t8.rows.length ≤ t.rows.length := by
        have h1 : t8.rows.length = t5.rows.length := by
          rw [ht8]
          simp [Table.mapCol]
        rw [h1, resolveColumns_rows_length hrc]
      have hspec := finalizeRows_summary_fields t.rows.length t8 di ai
      have hmem := @finalizeRows_rows_mem t.rows.length t8 di ai hdiai hdi8 hai8 hdshape
      have hhd := finalizeRows_header t.rows.length t8 di ai
      have hlen := (finalizeRows_rows_length_le t.rows.length t8 di ai).trans hle
      rw [Prod.ext_iff] at h
      obtain ⟨h1, h2⟩ := h
      subst h1
      subst h2
      refine ⟨di, ai, ?_, ?_, hmem, hspec.2.2 hlen, hspec.1, hspec.2.1⟩
      · rw [hhd]
        by_cases hsus : (colIdxs t8.header "is_suspicious").isEmpty = true
        · rw [if_pos hsus]
          unfold colIdxs
          rw [colIdxsFrom_append]
          have hz : colIdxsFrom (0 + t8.header.length) ["is_suspicious"] "date" = [] := by
            simp [colIdxsFrom]
          rw [hz, List.append_nil]
          exact hdi8
        · rw [if_neg hsus]
          exact hdi8
      · rw [hhd]
        by_cases hsus : (colIdxs t8.header "is_suspicious").isEmpty = true
        · rw [if_pos hsus]
          unfold colIdxs
          rw [colIdxsFrom_append]
          have hz : colIdxsFrom (0 + t8.header.length) ["is_suspicious"] "amount" = [] := by
            simp [colIdxsFrom]
          rw [hz, List.append_nil]
          exact hai8
        · rw [if_neg hsus]
          exact hai8

/-- Claim C1 (witness): the invariants instantiated on the concrete
debit/credit table accepted by the pipeline. -/
theorem normalize_output_invariants_witness :
    ∃ di ai, colIdxs exDCOut.header "date" = [di] ∧ colIdxs exDCOut.header "amount" = [ai] ∧
      (∀ r ∈ exDCOut.rows, (∃ d, r.getD di Val.na = Val.date d) ∧
        (∃ q, r.getD ai Val.na = Val.num q)) ∧
      exDCSumm.invalid_rows + exDCSumm.valid_rows = exDCSumm.total_rows ∧
      exDCSumm.total_rows = exDC.rows.length ∧
      exDCSumm.valid_rows = exDCOut.rows.length :=
  normalize_output_invariants exDC exDCOut exDCSumm (by decide)



/-- Claim C8: while the vector index has never been built (no in-memory
store, nothing usable on disk), a narrow query fails with a typed error
and never returns a document list; in the only configuration this
repository constructs (`persist_directory` is never set), the error is
exactly "Vector store not initialized". -/
theorem uninitialized_index_fails_fast :
    ∀ (em : EmbeddingManagerState) (disk : String → DirState) (df : Table) (s : Summary)
      (q : String),
      isBroadQuery q = false →
      em.vectorStore = none →
      (∀ p, (disk p).hasIndex = false) →
      (∃ e, retrieve em disk df s q = .error e) ∧
      (em.persistDirectory = none →
        retrieve em disk df s q = .error "Vector store not initialized") := by
  intro em disk df s q hq hvs hdisk
  have hget : ∃ e, getRetriever em disk = .error e ∧
      (em.persistDirectory = none → e = "Vector store not initialized") := by
    unfold getRetriever
    rw [hvs]
    cases hpd : em.persistDirectory with
    | none => exact ⟨_, rfl, fun _ => rfl⟩
    | some p =>
      dsimp only
      unfold loadVectorStore
      cases hdp : disk p with
      | missing => exact ⟨_, rfl, fun hc => by cases hc⟩
      | emptyDir => exact ⟨_, rfl, fun hc => by cases hc⟩
      | corrupt => exact ⟨_, rfl, fun hc => by cases hc⟩
      | holds vs =>
        exfalso
        have hx := hdisk p
        rw [hdp] at hx
        cases hx
  rcases hget with ⟨e, he, himp⟩
  have hret : retrieve em disk df s q = .error e := by
    unfold retrieve
    rw [hq]
    simp only [Bool.false_eq_true, if_false]
    rw [he]
    rfl
  exact ⟨⟨e, hret⟩, fun hpd => by rw [hret, himp hpd]⟩

/-- Claim C8 (witness): a narrow question against the repository's
reachable uninitialized state is the explicit initialization error. -/
theorem uninitialized_index_fails_fast_witness :
    retrieve emUninit diskEmpty dfStar summStar "how much at kfc" =
      .error "Vector store not initialized" :=
  (uninitialized_index_fails_fast emUninit diskEmpty dfStar summStar "how much at kfc"
    (by decide) rfl (fun _ => rfl)).2 rfl

/-- Claim C7 (counterexample): for the narrow question
"How much at Starbucks?" the display table is the retrieved set, not a
merchant-filtered table — with a stub index returning a `kfc` hit, the
shown table contains a row whose merchant does not match `starbucks`,
although a merchant filter for `starbucks` would have matched. -/
theorem narrow_query_display_not_merchant_filtered :
    extractMerchantFilter dfStar "How much at Starbucks?" = some "starbucks" ∧
    shouldShowDisplayTable "How much at Starbucks?" = true ∧
    isBroadQuery "How much at Starbucks?" = false ∧
    retrieve emKfc diskEmpty dfStar summStar "How much at Starbucks?" =
      .ok ([{ text := "kfc - $3 on 2024-01-02", date := .str "2024-01-02",
              merchant := .str "kfc", amount := .num 3 }],
           { header := ["date", "merchant", "amount"],
             rows := [[Val.str "2024-01-02", Val.str "kfc", Val.num 3]] }) ∧
    merchantCellMatches "starbucks" (Val.str "kfc") = false := by
  refine ⟨by decide, by decide, by decide, rfl, by decide⟩


/-- Claim C7 (amended): the merchant-filter / whole-dataset / empty
display rule governs the display table of *broad* queries: when the
question is broad and a table is shown, a matching merchant filter
yields only rows whose merchant cell matches it (taking precedence over
whole-dataset keywords); with no merchant match, a whole-dataset keyword
yields the full table, else the table is empty.  (For narrow queries the
display table is the retrieved set projected in retrieval order.)  The
merchant strings of the table are required to be free of regex
metacharacters, since the `.str.contains` mask treats the extracted
merchant as a regular expression and only then coincides with the
substring model. -/
theorem broad_display_table_rule :
    ∀ (em : EmbeddingManagerState) (disk : String → DirState) (df : Table) (s : Summary)
      (q : String) (d0 mi : Nat),
      isBroadQuery q = true → shouldShowDisplayTable q = true →
      colIdxs df.header "date" = [d0] → colIdxs df.header "merchant" = [mi] →
      (df.rows.all (fun r =>
        regexFree (pyLower (pyStr (rowGet df r "merchant" (.str "")))))) = true →
      ∃ docs disp, retrieve em disk df s q = .ok (docs, disp) ∧
        disp = filterDisplayData df q ∧
        (∀ m, extractMerchantFilter df q = some m →
          ∀ r ∈ disp.rows, merchantCellMatches m (r.getD 1 Val.na) = true) ∧
        (extractMerchantFilter df q = none →
          ((wholeDatasetKeywords.any (fun w => strContains (pyLower q) w)) = true →
            disp.rows.length = df.rows.length) ∧
          ((wholeDatasetKeywords.any (fun w => strContains (pyLower q) w)) = false →
            disp.rows = [])) := by
  intro em disk df s q d0 mi hb hs hd hm hregex
  have hret : retrieve em disk df s q = .ok
      (summaryDoc s :: df.rows.map (rowDoc df), filterDisplayData df q) := by
    unfold retrieve
    rw [hb, hs]
    rfl
  refine ⟨_, _, hret, rfl, ?_, ?_⟩
  · intro m hm' r hr
    simp only [filterDisplayData] at hr
    rw [hm'] at hr
    simp only [projectCols, List.mem_map] at hr
    rcases hr with ⟨r', hr', hreq⟩
    rcases List.mem_filter.mp hr' with ⟨hr'mem, hpred⟩
    have hidxs : (((["date", "merchant", "amount"] ++
        (getExtraColumns df).filter (fun c => df.header.contains c)).map
          (fun n => colIdxs df.header n)).flatten) =
        d0 :: mi :: (colIdxs df.header "amount" ++
          (((getExtraColumns df).filter (fun c => df.header.contains c)).map
            (fun n => colIdxs df.header n)).flatten) := by
      simp only [List.cons_append, List.nil_append, List.map_cons, List.flatten_cons, hd, hm]
    rw [hidxs] at hreq
    have hcell : r.getD 1 Val.na = r'.getD mi Val.na := by
      rw [← hreq]
      rfl
    rw [hcell]
    have hget : rowGet df r' "merchant" Val.na = r'.getD mi Val.na := by
      unfold rowGet
      rw [hm]
    rw [hget] at hpred
    exact hpred
  · intro hnone
    simp only [filterDisplayData]
    rw [hnone]
    constructor
    · intro hany
      rw [hany]
      simp only [if_true]
      simp [projectCols]
    · intro hfalse
      rw [hfalse]
      simp

/-- Claim C7 (witness): the broad display rule at a concrete broad
question over the normalized table with merchants `starbucks`/`kfc`. -/
theorem broad_display_table_rule_witness :
    (dfStar.rows.all (fun r =>
      regexFree (pyLower (pyStr (rowGet dfStar r "merchant" (.str "")))))) = true ∧
    ∃ docs disp,
      retrieve emKfc diskEmpty dfStar summStar "Show me all transactions" = .ok (docs, disp) ∧
      disp = filterDisplayData dfStar "Show me all transactions" ∧
      (∀ m, extractMerchantFilter dfStar "Show me all transactions" = some m →
        ∀ r ∈ disp.rows, merchantCellMatches m (r.getD 1 Val.na) = true) ∧
      (extractMerchantFilter dfStar "Show me all transactions" = none →
        ((wholeDatasetKeywords.any
            (fun w => strContains (pyLower "Show me all transactions") w)) = true →
          disp.rows.length = dfStar.rows.length) ∧
        ((wholeDatasetKeywords.any
            (fun w => strContains (pyLower "Show me all transactions") w)) = false →
          disp.rows = [])) :=
  ⟨by decide,
    broad_display_table_rule emKfc diskEmpty dfStar summStar "Show me all transactions" 0 1
      (by decide) (by decide) (by decide) (by decide) (by decide)⟩

/-- The per-row transform of the debit/credit merge: the signed amount
`credit − debit` overwrites every pre-existing `amount` position, or is
appended when none exists, and the two source cells are dropped. -/
def mergedRow (di ci : Nat) (amtIdxs : List Nat) (r : List Val) : List Val :=
  removeIdxs
    (if amtIdxs.isEmpty then
      r ++ [Val.num (ratSub ((cleanValue (r.getD ci Val.na)).getD 0)
        ((cleanValue (r.getD di Val.na)).getD 0))]
    else setIdxs r amtIdxs (Val.num (ratSub ((cleanValue (r.getD ci Val.na)).getD 0)
      ((cleanValue (r.getD di Val.na)).getD 0)))) [di, ci]

/-- Claim C2: a table with both a `debit` and a `credit` column (after
header normalization) has them cleaned and merged into a single signed
`amount` column equal to `credit − debit` with missing treated as 0 -
overwriting a pre-existing `amount` column in place, or appending one -
with both sources dropped; and on the concrete `Debit`/`Credit` table
the full pipeline yields amounts `-50` and `120` (rows `(50,0)` and
`(0,120)`) - the merge takes effect before the `debit`/`credit` amount
aliases could match. -/
theorem debit_credit_merge :
    (∀ (t : Table) (di ci : Nat), t.Wf →
      colIdxs t.header "debit" = [di] → colIdxs t.header "credit" = [ci] →
      ∃ t', mergeDebitCredit t = .ok t' ∧
        "debit" ∉ t'.header ∧ "credit" ∉ t'.header ∧ "amount" ∈ t'.header ∧
        t'.rows = t.rows.map (mergedRow di ci (colIdxs t.header "amount")) ∧
        ∀ r ∈ t.rows, ∀ j, t'.header[j]? = some "amount" →
          (mergedRow di ci (colIdxs t.header "amount") r).getD j Val.na =
            Val.num (ratSub ((cleanValue (r.getD ci Val.na)).getD 0)
              ((cleanValue (r.getD di Val.na)).getD 0))) ∧
    parseAndCleanCsv exDC = .ok (exDCOut, exDCSumm) := by
  constructor
  · intro t di ci hwf hdi hci
    have hgd := colIdxs_singleton_getElem hdi
    have hgc := colIdxs_singleton_getElem hci
    have hdlt : di < t.header.length := (List.getElem?_eq_some_iff.mp hgd.1).1
    have hclt : ci < t.header.length := (List.getElem?_eq_some_iff.mp hgc.1).1
    have hmemD : "debit" ∈ t.header := List.mem_iff_getElem?.mpr ⟨di, hgd.1⟩
    have hmemC : "credit" ∈ t.header := List.mem_iff_getElem?.mpr ⟨ci, hgc.1⟩
    have hcond : (t.header.contains "debit" && t.header.contains "credit") = true := by
      simp [hmemD, hmemC]
    refine ⟨⟨removeIdxs (if (colIdxs t.header "amount").isEmpty then t.header ++ ["amount"]
          else t.header) [di, ci],
        t.rows.map (mergedRow di ci (colIdxs t.header "amount"))⟩,
      ?_, ?_, ?_, ?_, rfl, ?_⟩
    · unfold mergeDebitCredit
      rw [if_pos hcond, hdi, hci]
      rfl
    · intro hmem
      rcases mem_removeIdxsFrom.mp hmem with ⟨j, hjc, hjget⟩
      have hj := mem_colIdxs.mpr hjget
      by_cases hA : (colIdxs t.header "amount").isEmpty = true
      · rw [if_pos hA, colIdxs_append_single_ne (by decide), hdi] at hj
        simp only [List.mem_singleton] at hj
        subst hj
        simp at hjc
      · rw [if_neg hA, hdi] at hj
        simp only [List.mem_singleton] at hj
        subst hj
        simp at hjc
    · intro hmem
      rcases mem_removeIdxsFrom.mp hmem with ⟨j, hjc, hjget⟩
      have hj := mem_colIdxs.mpr hjget
      by_cases hA : (colIdxs t.header "amount").isEmpty = true
      · rw [if_pos hA, colIdxs_append_single_ne (by decide), hci] at hj
        simp only [List.mem_singleton] at hj
        subst hj
        simp at hjc
      · rw [if_neg hA, hci] at hj
        simp only [List.mem_singleton] at hj
        subst hj
        simp at hjc
    · by_cases hA : (colIdxs t.header "amount").isEmpty = true
      · apply mem_removeIdxsFrom.mpr
        refine ⟨t.header.length, ?_, ?_⟩
        · simp only [Nat.zero_add]
          have h1 : t.header.length ≠ di := by omega
          have h2 : t.header.length ≠ ci := by omega
          simp [h1, h2]
        · rw [if_pos hA, List.getElem?_append_right (Nat.le_refl _)]
          simp
      · cases hAc : colIdxs t.header "amount" with
        | nil => exact absurd (by rw [hAc]; rfl) hA
        | cons a0 tl =>
          have ha0 : a0 ∈ colIdxs t.header "amount" := by
            rw [hAc]
            exact List.mem_cons_self _ _
          have hga0 := mem_colIdxs.mp ha0
          have ha0di : a0 ≠ di := by
            intro he
            rw [he, hgd.1] at hga0
            simp at hga0
          have ha0ci : a0 ≠ ci := by
            intro he
            rw [he, hgc.1] at hga0
            simp at hga0
          apply mem_removeIdxsFrom.mpr
          refine ⟨a0, ?_, ?_⟩
          · simp only [Nat.zero_add]
            simp [ha0di, ha0ci]
          · simpa using hga0
    · intro r hr j hjget
      have hrlen : r.length = t.header.length := hwf r hr
      dsimp only at hjget
      unfold removeIdxs at hjget
      have hlen1 : (if (colIdxs t.header "amount").isEmpty then t.header ++ ["amount"]
          else t.header).length =
        (if (colIdxs t.header "amount").isEmpty then
          r ++ [Val.num (ratSub ((cleanValue (r.getD ci Val.na)).getD 0)
            ((cleanValue (r.getD di Val.na)).getD 0))]
        else setIdxs r (colIdxs t.header "amount")
          (Val.num (ratSub ((cleanValue (r.getD ci Val.na)).getD 0)
            ((cleanValue (r.getD di Val.na)).getD 0)))).length := by
        by_cases hA : (colIdxs t.header "amount").isEmpty = true
        · rw [if_pos hA, if_pos hA]
          simp [hrlen]
        · rw [if_neg hA, if_neg hA, length_setIdxs, hrlen]
      have hjlt := (List.getElem?_eq_some_iff.mp hjget).1
      obtain ⟨k, hk, hkc, h1, h2⟩ := removeIdxsFrom_getElem?_pair hlen1 hjlt
      rw [hjget] at h1
      unfold mergedRow removeIdxs
      rw [getD_eq_getElem?D, h2]
      by_cases hA : (colIdxs t.header "amount").isEmpty = true
      · have hnotin : "amount" ∉ t.header := colIdxs_eq_nil_iff.mp (by
          cases hx : colIdxs t.header "amount" with
          | nil => rfl
          | cons a tl =>
            rw [hx] at hA
            cases hA)
        rw [if_pos hA] at h1
        have hkeq : k = t.header.length := by
          by_cases hklt : k < t.header.length
          · exfalso
            rw [List.getElem?_append_left hklt] at h1
            exact hnotin (List.getElem?_mem h1.symm)
          · rw [if_pos hA] at hk
            simp only [List.length_append, List.length_cons, List.length_nil] at hk
            omega
        subst hkeq
        rw [if_pos hA, ← hrlen, List.getElem?_append_right (Nat.le_refl _)]
        simp
      · rw [if_neg hA] at h1
        have hkA : k ∈ colIdxs t.header "amount" := mem_colIdxs.mpr h1.symm
        have hklt : k < t.header.length := (List.getElem?_eq_some_iff.mp h1.symm).1
        rw [if_neg hA]
        unfold setIdxs
        rw [getElem?_setIdxsFrom, if_pos ⟨by simpa using hkA, by omega⟩]
        rfl
  · decide

/-- Claim C2 (witness): the merge semantics applied to a concrete table
that already has an `amount` column - the merge overwrites it in place
with `credit − debit` (and drops `debit`/`credit`). -/
theorem debit_credit_merge_witness :
    ∃ t', mergeDebitCredit exDCA = .ok t' ∧
      "debit" ∉ t'.header ∧ "credit" ∉ t'.header ∧ "amount" ∈ t'.header ∧
      t'.rows = exDCA.rows.map (mergedRow 2 3 (colIdxs exDCA.header "amount")) ∧
      ∀ r ∈ exDCA.rows, ∀ j, t'.header[j]? = some "amount" →
        (mergedRow 2 3 (colIdxs exDCA.header "amount") r).getD j Val.na =
          Val.num (ratSub ((cleanValue (r.getD 3 Val.na)).getD 0)
            ((cleanValue (r.getD 2 Val.na)).getD 0)) :=
  debit_credit_merge.1 exDCA 2 3 (by decide) (by decide) (by decide)

theorem inferMerchantColumn_mem {t : Table} {c : String}
    (h : inferMerchantColumn t = .ok (some c)) : c ∈ t.header := by
  unfold inferMerchantColumn at h
  cases hf : merchantAliases.find? (fun a => t.header.contains a) with
  | some a =>
    rw [hf] at h
    simp only [Except.ok.injEq, Option.some.injEq] at h
    subst h
    have := List.find?_some hf
    simpa using this
  | none =>
    rw [hf] at h
    exact (inferMerchantLoop_mem_ne h).1

/-- Totality of the schema-resolution stage once the safety check, the
merge, and both role inferences have gone through, provided the labels
are unique and the two roles landed on different columns. -/
theorem resolveColumns_total {t t2 : Table} {dc ac : String}
    (hnd : (normalizeColumnNames t).header.Nodup)
    (hp : ∃ msg, isSafeCsv t = (true, msg))
    (hm : mergeDebitCredit (normalizeColumnNames t) = .ok t2)
    (hdc : inferDateColumn t2 = .ok (some dc))
    (hac : inferAmountColumn t2 = some ac)
    (hne : ac ≠ dc) :
    ∃ t5, resolveColumns t = .ok t5 ∧ t5.header.Nodup ∧
      "date" ∈ t5.header ∧ "amount" ∈ t5.header ∧ "merchant" ∈ t5.header := by
  obtain ⟨msg, hps⟩ := hp
  have ht2nd : t2.header.Nodup := mergeDebitCredit_nodup hnd hm
  have hdcmem : dc ∈ t2.header := inferDateColumn_mem hdc
  have hacmem : ac ∈ t2.header := inferAmountColumn_mem hac
  have hacd : ac ≠ "date" := inferAmountColumn_ne_date hac
  have ht3 : ∃ t3, (if dc ≠ "date" then renameCol t2 dc "date" else t2) = t3 ∧
      t3.header.Nodup ∧ "date" ∈ t3.header ∧ ac ∈ t3.header := by
    by_cases hdcd : dc = "date"
    · exact ⟨t2, by simp [hdcd], ht2nd, hdcd ▸ hdcmem, hacmem⟩
    · have hdnotin : "date" ∉ t2.header := fun hmem =>
        hdcd (by
          have hx := inferDateColumn_of_date_mem hmem
          rw [hdc] at hx
          simpa using hx)
      exact ⟨renameCol t2 dc "date", by simp [hdcd], rename_nodup ht2nd hdnotin,
        new_mem_rename hdcmem, mem_rename_of_mem hacmem hne⟩
  obtain ⟨t3, ht3eq, ht3nd, ht3date, ht3ac⟩ := ht3
  have ht4 : ∃ t4, (if ac ≠ "amount" then renameCol t3 ac "amount" else t3) = t4 ∧
      t4.header.Nodup ∧ "date" ∈ t4.header ∧ "amount" ∈ t4.header := by
    by_cases haca : ac = "amount"
    · exact ⟨t3, by simp [haca], ht3nd, ht3date, haca ▸ ht3ac⟩
    · have hanotin2 : "amount" ∉ t2.header := fun hmem =>
        haca (by
          have hx := inferAmountColumn_of_amount_mem hmem
          rw [hac] at hx
          simpa using hx)
      have hanotin3 : "amount" ∉ t3.header := by
        intro hmem
        rw [← ht3eq] at hmem
        by_cases hdcd : dc = "date"
        · rw [if_neg (by simpa using hdcd)] at hmem
          exact hanotin2 hmem
        · rw [if_pos hdcd] at hmem
          rcases mem_rename_elim hmem with hbad | ⟨hmem2, -⟩
          · exact absurd hbad (by decide)
          · exact hanotin2 hmem2
      exact ⟨renameCol t3 ac "amount", by simp [haca], rename_nodup ht3nd hanotin3,
        mem_rename_of_mem ht3date (fun hx => hacd hx.symm), new_mem_rename ht3ac⟩
  obtain ⟨t4, ht4eq, ht4nd, ht4date, ht4amt⟩ := ht4
  obtain ⟨mc?, hmc⟩ := inferMerchantColumn_total ht4nd
  have ht5 : ∃ t5, (match mc? with
      | some mc => if mc ≠ "merchant" then renameCol t4 mc "merchant" else t4
      | none =>
        if !(t4.header.contains "merchant") then
          { header := t4.header ++ ["merchant"],
            rows := t4.rows.map (fun r => r ++ [Val.str "unknown_merchant"]) }
        else t4) = t5 ∧
      t5.header.Nodup ∧ "date" ∈ t5.header ∧ "amount" ∈ t5.header ∧
      "merchant" ∈ t5.header := by
    cases mc? with
    | some mc =>
      have hmcmem : mc ∈ t4.header := inferMerchantColumn_mem hmc
      have hmcne := inferMerchantColumn_ne hmc
      by_cases hmcm : mc = "merchant"
      · exact ⟨t4, by simp [hmcm], ht4nd, ht4date, ht4amt, hmcm ▸ hmcmem⟩
      · have hmnotin : "merchant" ∉ t4.header := fun hmem =>
          hmcm (by
            have hx := inferMerchantColumn_of_merchant_mem hmem
            rw [hmc] at hx
            simpa using hx)
        exact ⟨renameCol t4 mc "merchant", by simp [hmcm],
          rename_nodup ht4nd hmnotin,
          mem_rename_of_mem ht4date (fun hx => hmcne.1 hx.symm),
          mem_rename_of_mem ht4amt (fun hx => hmcne.2 hx.symm),
          new_mem_rename hmcmem⟩
    | none =>
      by_cases hmem : "merchant" ∈ t4.header
      · exact ⟨t4, by simp [hmem], ht4nd, ht4date, ht4amt, hmem⟩
      · refine ⟨⟨t4.header ++ ["merchant"],
            t4.rows.map (fun r => r ++ [Val.str "unknown_merchant"])⟩,
          ?_, ?_, ?_, ?_, ?_⟩
        · simp [hmem]
        · show (t4.header ++ ["merchant"]).Nodup
          rw [List.nodup_append]
          exact ⟨ht4nd, List.nodup_singleton _, by simpa using hmem⟩
        · exact List.mem_append.mpr (Or.inl ht4date)
        · exact List.mem_append.mpr (Or.inl ht4amt)
        · exact List.mem_append.mpr (Or.inr (List.mem_singleton.mpr rfl))
  obtain ⟨t5, ht5eq, ht5nd, h5d, h5a, h5m⟩ := ht5
  refine ⟨t5, ?_, ht5nd, h5d, h5a, h5m⟩
  unfold resolveColumns
  simp only [hps, hm, hdc, hac, Bind.bind, Except.bind, Bool.not_true,
    Bool.false_eq_true, if_false, pure, Except.pure]
  rw [ht3eq, ht4eq, hmc]
  dsimp only
  rw [ht5eq]

theorem cleanColumns_total {t5 : Table} (hnd : t5.header.Nodup)
    (h1 : "date" ∈ t5.header) (h2 : "amount" ∈ t5.header)
    (h3 : "merchant" ∈ t5.header) :
    ∃ r, cleanColumns t5 = .ok r := by
  obtain ⟨di, hdi⟩ := colIdxs_singleton_of_nodup hnd h1
  obtain ⟨ai, hai⟩ := colIdxs_singleton_of_nodup hnd h2
  obtain ⟨mi, hmi⟩ := colIdxs_singleton_of_nodup hnd h3
  refine ⟨(((t5.mapCol di pdToDatetime).mapCol ai cleanedVal).mapCol mi normMerchantVal,
    di, ai), ?_⟩
  unfold cleanColumns Table.uniqueIdx
  simp only [Table.mapCol_header]
  rw [hdi, hai, hmi]
  rfl

/-- Claim C10 (counterexample): raw headers `Date` and `date ` collide
after normalization; the structural pre-check still reports ok=true, but
the pipeline raises when `pd.to_datetime` is applied to the duplicated
`date` selection. -/
theorem duplicate_label_breaks_precheck_equivalence :
    validateCsvStructure exDup = .ok (true, "") ∧
    parseAndCleanCsv exDup = .error "pd.to_datetime on a duplicated date label raises" := by
  refine ⟨by decide, by decide⟩

/-- Claim C10 (amended): a successful pipeline run always implies the
pre-check reports ok=true; conversely, when the normalized header labels
are unique and the inferred date and amount columns are distinct, a
table the pre-check accepts is normalized without raising.  (Duplicated
normalized labels, or one column resolved as both date and amount,
break the equivalence: the pre-check passes but the pipeline raises.) -/
theorem precheck_matches_pipeline_on_unique_labels :
    (∀ (t : Table) (out : Table × Summary),
      parseAndCleanCsv t = .ok out → validateCsvStructure t = .ok (true, "")) ∧
    (∀ t t2 : Table, (normalizeColumnNames t).header.Nodup →
      mergeDebitCredit (normalizeColumnNames t) = .ok t2 →
      (∀ c, inferDateColumn t2 = .ok (some c) → inferAmountColumn t2 ≠ some c) →
      validateCsvStructure t = .ok (true, "") →
      ∃ out, parseAndCleanCsv t = .ok out) := by
  constructor
  · intro t out h
    unfold parseAndCleanCsv at h
    cases hrc : resolveColumns t with
    | error e =>
      rw [hrc] at h
      simp [Bind.bind, Except.bind] at h
    | ok t5 =>
      obtain ⟨hsafe, t2, dc, ac, mc?, hm, hdc, hac, hmc, ht5⟩ := resolveColumns_ok hrc
      unfold validateCsvStructure
      cases hps : isSafeCsv t with
      | mk ok msg =>
        rw [hps] at hsafe
        cases ok with
        | false => cases hsafe
        | true =>
          simp only [hm, hdc, hac, Bind.bind, Except.bind, Bool.not_true,
            Bool.false_eq_true, if_false, pure, Except.pure, Option.isNone_some]
  · intro t t2 hnd hm hdist hv
    have hp : ∃ msg, isSafeCsv t = (true, msg) := by
      cases hps : isSafeCsv t with
      | mk ok msg =>
        cases ok
        · exfalso
          unfold validateCsvStructure at hv
          rw [hps] at hv
          simp [Bind.bind, Except.bind, pure, Except.pure] at hv
        · exact ⟨msg, rfl⟩
    obtain ⟨msg, hps⟩ := hp
    unfold validateCsvStructure at hv
    simp only [hps, hm, Bind.bind, Except.bind, Bool.not_true, Bool.false_eq_true,
      if_false, pure, Except.pure] at hv
    cases hdc : inferDateColumn t2 with
    | error e =>
      rw [hdc] at hv
      simp at hv
    | ok dc? =>
      rw [hdc] at hv
      cases dc? with
      | none => simp at hv
      | some dc =>
        simp only [Option.isNone_some, Bool.false_eq_true, if_false] at hv
        cases hac : inferAmountColumn t2 with
        | none =>
          rw [hac] at hv
          simp at hv
        | some ac =>
          have hne : ac ≠ dc := fun he => hdist dc hdc (by rw [← he]; exact hac)
          obtain ⟨t5, hres, ht5nd, h5d, h5a, h5m⟩ :=
            resolveColumns_total hnd ⟨msg, hps⟩ hm hdc hac hne
          obtain ⟨⟨t8, di, ai⟩, hcl⟩ := cleanColumns_total ht5nd h5d h5a h5m
          refine ⟨finalizeRows t.rows.length t8 di ai, ?_⟩
          unfold parseAndCleanCsv
          rw [hres]
          simp only [Bind.bind, Except.bind]
          rw [hcl]

/-- Claim C10 (witness): the equivalence at a concrete accepted table. -/
theorem precheck_matches_pipeline_witness :
    ∃ out, parseAndCleanCsv exNormal3x5 = .ok out :=
  precheck_matches_pipeline_on_unique_labels.2 exNormal3x5
    (normalizeColumnNames exNormal3x5) (by decide) (by decide)
    (fun c hc => by
      have hdd : inferDateColumn (normalizeColumnNames exNormal3x5) = .ok (some "date") := by
        decide
      rw [hdd] at hc
      simp only [Except.ok.injEq, Option.some.injEq] at hc
      subst hc
      decide)
    (by decide)

/-- Claim C3: amount-string cleaning maps `"($1,234.56)"` to `-1234.56`
(parentheses become a leading minus; currency symbols and thousands
separators are stripped), `"GHS 45.00"` to `45.00`, `"-₵10"` to `-10.0`,
and `"N/A"` to a missing value, so that on `exT` the `N/A` row is dropped
from the normalized table (2 valid rows, 1 invalid) rather than kept
with amount 0. -/
theorem amount_cleaning_examples :
    cleanStr "($1,234.56)" = some (mkRat (-123456) 100) ∧
    cleanStr "GHS 45.00" = some (mkRat 4500 100) ∧
    cleanStr "-₵10" = some (mkRat (-10) 1) ∧
    cleanStr "N/A" = none ∧
    parseAndCleanCsv exT = .ok (exTOut, exTSumm) ∧
    exTSumm.valid_rows = 2 ∧ exTSumm.invalid_rows = 1 ∧
    (∀ r ∈ exTOut.rows, r.getD 1 Val.na ≠ Val.str "shop") := by
  refine ⟨by decide, by decide, by decide, by decide, by decide, rfl, rfl, by decide⟩

/-- Claim C5 (counterexample): the header denylist and the cell denylist
are not the same list — a sampled cell carrying `system(`, a token the
claim says is screened in cells as well as headers, is accepted with
`ok = true`. -/
theorem cell_denylist_differs_from_header_denylist :
    isSafeCsv exSystemCell = (true, "") ∧
    strContains (pyLower (pyStr (Val.str "system(x)"))) "system(" = true ∧
    "system(" ∈ dangerousPatterns ∧
    "system(" ∉ dangerousContent := by
  refine ⟨by decide, by decide, by decide, by decide⟩

/-- Claim C5 (amended): the validator short-circuits in source order —
empty table, row cap (100,000), more than 50 columns, fewer than 2
columns, header denylist (9 patterns, including `system(` and
`__import__`), then a cell scan of the first 10 rows against a distinct
8-pattern cell denylist (with `<iframe`, without `system(`/`__import__`)
— all case-insensitive.  `ok = true` is equivalent to the conjunction of
the checks; the `<script>alert(1)</script>` header is rejected, a normal
3-column 5-row table is accepted, and a 1-column 100,001-row table is
reported as too large (row cap before column minimum). -/
theorem safety_validator_characterization :
    (∀ t : Table, (isSafeCsv t).1 = true ↔
      (t.rows.length ≠ 0 ∧ t.rows.length ≤ 100000 ∧
       t.header.length ≤ 50 ∧ 2 ≤ t.header.length ∧
       (∀ c ∈ t.header, ∀ d ∈ dangerousPatterns, strContains (pyLower c) d = false) ∧
       (∀ r ∈ t.rows.take 10, ∀ v ∈ r, cellIsDangerous v = false))) ∧
    isSafeCsv exScriptHeader =
      (false, "Potentially dangerous column name: <script>alert(1)</script>") ∧
    isSafeCsv exNormal3x5 = (true, "") ∧
    isSafeCsv exTooManyRowsOneCol = (false, "CSV file too large (max 100,000 rows)") := by
  refine ⟨fun t => ?_, by decide, by decide, ?_⟩
  · unfold isSafeCsv
    by_cases h1 : t.rows.length = 0
    · rw [if_pos h1]
      exact iff_of_false Bool.false_ne_true (fun hc => hc.1 h1)
    rw [if_neg h1]
    by_cases h2 : t.rows.length > 100000
    · rw [if_pos h2]
      exact iff_of_false Bool.false_ne_true (fun hc => absurd hc.2.1 (by omega))
    rw [if_neg h2]
    by_cases h3 : t.header.length > 50
    · rw [if_pos h3]
      exact iff_of_false Bool.false_ne_true (fun hc => absurd hc.2.2.1 (by omega))
    rw [if_neg h3]
    by_cases h4 : t.header.length < 2
    · rw [if_pos h4]
      exact iff_of_false Bool.false_ne_true (fun hc => absurd hc.2.2.2.1 (by omega))
    rw [if_neg h4]
    cases hf : t.header.find? (fun c => dangerousPatterns.any
        (fun d => strContains (pyLower c) d)) with
    | some c =>
      simp only [hf]
      refine iff_of_false Bool.false_ne_true (fun hc => ?_)
      have hmem := List.find?_some hf
      have hcmem := List.mem_of_find?_eq_some hf
      rcases List.any_eq_true.mp hmem with ⟨d, hd, hds⟩
      have hz := hc.2.2.2.2.1 c hcmem d hd
      rw [hz] at hds
      exact Bool.false_ne_true hds
    | none =>
      simp only [hf]
      have hnone := List.find?_eq_none.mp hf
      by_cases hcell : ((t.rows.take 10).any fun r => r.any cellIsDangerous) = true
      · rw [if_pos hcell]
        refine iff_of_false Bool.false_ne_true (fun hc => ?_)
        rcases List.any_eq_true.mp hcell with ⟨r, hr, hrany⟩
        rcases List.any_eq_true.mp hrany with ⟨v, hv, hvd⟩
        have hz := hc.2.2.2.2.2 r hr v hv
        rw [hz] at hvd
        exact Bool.false_ne_true hvd
      · rw [if_neg hcell]
        refine iff_of_true rfl ⟨h1, by omega, by omega, by omega, ?_, ?_⟩
        · intro c hc d hd
          have hno := Bool.eq_false_iff.mpr (hnone c hc)
          exact Bool.eq_false_iff.mpr (List.any_eq_false.mp hno d hd)
        · intro r hr v hv
          have hno := Bool.eq_false_iff.mpr hcell
          have hrow := Bool.eq_false_iff.mpr (List.any_eq_false.mp hno r hr)
          exact Bool.eq_false_iff.mpr (List.any_eq_false.mp hrow v hv)
  · show isSafeCsv exTooManyRowsOneCol = _
    unfold isSafeCsv exTooManyRowsOneCol
    simp only [List.length_replicate]
    norm_num

/-- Claim C5 (witness): the characterization applied to the accepted
3-column, 5-row table. -/
theorem safety_validator_characterization_witness :
    (isSafeCsv exNormal3x5).1 = true :=
  (safety_validator_characterization.1 exNormal3x5).mpr (by decide)

/-- Claim C6 (counterexample): `sum` is not one of the broad keywords —
a question containing `sum` (and no actual keyword) is classified
narrow, although the claim lists `sum` in the keyword set. -/
theorem sum_is_not_a_broad_keyword :
    isBroadQuery "What is the sum?" = false ∧
    strContains (pyLower "What is the sum?") "sum" = true ∧
    "sum" ∉ broadKeywords := by
  refine ⟨by decide, by decide, by decide⟩

/-- Claim C6 (amended): `is_broad` is true exactly when the lower-cased
question contains one of the fixed 21 keywords (`total`, `all`,
`average`, `count`, `how many`, `story`, `summary`, `pattern`, `trend`,
… — but not `sum`), and `show_table` is true unless the question
contains one of `story`, `tell me`, `narrative`, `describe`. -/
theorem query_classifier_characterization :
    (∀ q : String, isBroadQuery q = true ↔
      ∃ k ∈ broadKeywords, strContains (pyLower q) k = true) ∧
    (∀ q : String, shouldShowDisplayTable q = false ↔
      ∃ k ∈ noTableKeywords, strContains (pyLower q) k = true) ∧
    isBroadQuery "What is my total spending?" = true ∧
    shouldShowDisplayTable "Tell me the story of my spending" = false := by
  refine ⟨fun q => ?_, fun q => ?_, by decide, by decide⟩
  · show (broadKeywords.any fun k => strContains (pyLower q) k) = true ↔ _
    rw [List.any_eq_true]
  · show (!(noTableKeywords.any fun k => strContains (pyLower q) k)) = false ↔ _
    rw [Bool.not_eq_false', List.any_eq_true]

/-- Claim C6 (witness): the characterization applied to the spec's
example question. -/
theorem query_classifier_characterization_witness :
    ∃ k ∈ broadKeywords, strContains (pyLower "What is my total spending?") k = true :=
  (query_classifier_characterization.1 "What is my total spending?").mp (by decide)

/-- Claim C9 (counterexample): a save that fails at the move step (after
`save_local` succeeded) is not atomic from the caller's point of view —
the previously saved index (`complete 3`) has already been deleted from
the canonical path, which is left holding nothing. -/
theorem failed_move_destroys_previous_index :
    (saveVectorStore (some 7) true false { canonical := .complete 3, tmp := .absent }).1 =
      .error "Failed to save vector store: move failed" ∧
    (saveVectorStore (some 7) true false { canonical := .complete 3, tmp := .absent }).2.canonical
      = .absent ∧
    (saveVectorStore (some 7) true false { canonical := .complete 3, tmp := .absent }).2.canonical
      ≠ .complete 3 := by
  refine ⟨by decide, by decide, by decide⟩

/-- Claim C9 (amended): the save writes to the `.tmp` sibling and then
moves it into place, and on any failure the temporary location is
cleaned up before the error propagates; if `save_local` itself fails the
previously visible index is left intact, but if the move fails the old
index has already been deleted, so the canonical path is left empty
(and the raised message carries the underlying cause but not the
path). -/
theorem save_vector_store_behavior :
    ∀ (idx : Nat) (fs : SaveFS) (slOk mvOk : Bool),
    (saveVectorStore none slOk mvOk fs = (.error "No vector store to save.", fs)) ∧
    (slOk = false →
      saveVectorStore (some idx) slOk mvOk fs =
        (.error "Failed to save vector store: save_local failed",
         { canonical := fs.canonical, tmp := .absent })) ∧
    (slOk = true → mvOk = true →
      saveVectorStore (some idx) slOk mvOk fs =
        (.ok (), { canonical := .complete idx, tmp := .absent })) ∧
    (slOk = true → mvOk = false →
      saveVectorStore (some idx) slOk mvOk fs =
        (.error "Failed to save vector store: move failed",
         { canonical := .absent, tmp := .absent })) := by
  intro idx fs slOk mvOk
  refine ⟨rfl, fun hsl => ?_, fun hsl hmv => ?_, fun hsl hmv => ?_⟩
  · subst hsl
    rfl
  · subst hsl
    subst hmv
    rfl
  · subst hsl
    subst hmv
    rfl

/-- Claim C9 (witness): the amended behavior at a concrete state — a
failing `save_local` leaves the old index in place and the tmp
directory cleaned. -/
theorem save_vector_store_behavior_witness :
    saveVectorStore (some 7) false true { canonical := .complete 3, tmp := .absent } =
      (.error "Failed to save vector store: save_local failed",
       { canonical := .complete 3, tmp := .absent }) :=
  (save_vector_store_behavior 7 { canonical := .complete 3, tmp := .absent } false true).2.1 rfl

/-- Claim C4 (counterexample): normalization is not idempotent on every
accepted table.  A two-column table whose only amount is `N/A` is
accepted and yields an empty transaction table, but re-running the
normalizer on that output raises the empty-file security error instead
of returning the same (empty) transaction set. -/
theorem normalize_not_idempotent_on_empty_output :
    parseAndCleanCsv exAllNa = .ok (exAllNaOut, exAllNaSumm) ∧
    parseAndCleanCsv exAllNaOut = .error "Security validation failed: CSV file is empty" := by
  refine ⟨by decide, by decide⟩

/-- Claim C4 (amended): on a rectangular input whose output table again
passes the safety gate (in particular, at least one transaction
survived), re-running the normalizer succeeds and returns the same
transaction set: the same header and the same multiset of rows with the
same cell values.  (The final `sort_values` uses an unstable quicksort,
so the order among rows with equal dates is not guaranteed to be
reproduced; the summary is recomputed over the already-clean rows.) -/
theorem normalize_idempotent_on_safe_output :
    ∀ (t out : Table) (summ : Summary), t.Wf →
      parseAndCleanCsv t = .ok (out, summ) →
      (isSafeCsv out).1 = true →
      ∃ out2 summ2, parseAndCleanCsv out = .ok (out2, summ2) ∧
        out2.header = out.header ∧ out2.rows.Perm out.rows ∧
        summ2.total_rows = out.rows.length ∧ summ2.valid_rows = out.rows.length := by
  intro t out summ hwf h hsafe
  obtain ⟨di, ai, mi, hdi, hai, hmi, hsusne, hnorm, hnb, howf, hsort, hrows⟩ :=
    parse_output_shape hwf h
  have hd : "date" ∈ out.header := List.getElem?_mem (colIdxs_singleton_getElem hdi).1
  have ha : "amount" ∈ out.header := List.getElem?_mem (colIdxs_singleton_getElem hai).1
  have hmem : "merchant" ∈ out.header := List.getElem?_mem (colIdxs_singleton_getElem hmi).1
  have hres : resolveColumns out = .ok out :=
    resolveColumns_fixed hsafe (normalizeColumnNames_eq_self hnorm)
      (mergeDebitCredit_eq_self hnb) hd ha hmem
  have hmap1 : out.mapCol di pdToDatetime = out := by
    apply mapCol_eq_self
    intro r hr
    obtain ⟨⟨d, hdc⟩, -, -, -⟩ := hrows r hr
    have hstep : pdToDatetime (r.getD di Val.na) = r.getD di Val.na := by
      rw [hdc]
      rfl
    rw [hstep]
    exact setIdxs_getD_self
  have hmap2 : out.mapCol ai cleanedVal = out := by
    apply mapCol_eq_self
    intro r hr
    obtain ⟨-, ⟨q, hq⟩, -, -⟩ := hrows r hr
    have hstep : cleanedVal (r.getD ai Val.na) = r.getD ai Val.na := by
      rw [hq]
      rfl
    rw [hstep]
    exact setIdxs_getD_self
  have hmap3 : out.mapCol mi normMerchantVal = out := by
    apply mapCol_eq_self
    intro r hr
    obtain ⟨-, -, hmfix, -⟩ := hrows r hr
    rw [hmfix]
    exact setIdxs_getD_self
  have hcc : cleanColumns out = .ok (out, di, ai) :=
    cleanColumns_fixed hdi hai hmi hmap1 hmap2 hmap3
  have hfin : (finalizeRows out.rows.length out di ai).1 = out :=
    finalizeRows_fixed (fun r hr => (hrows r hr).1) (fun r hr => (hrows r hr).2.1) hsusne
      (fun r hr => (hrows r hr).2.2.2) howf hsort
  refine ⟨out, (finalizeRows out.rows.length out di ai).2, ?_, rfl, List.Perm.refl _, ?_, ?_⟩
  · unfold parseAndCleanCsv
    rw [hres]
    simp only [Bind.bind, Except.bind]
    rw [hcc]
    dsimp only
    congr 1
    exact Prod.ext_iff.mpr ⟨hfin, rfl⟩
  · exact (finalizeRows_summary_fields out.rows.length out di ai).1
  · rw [(finalizeRows_summary_fields out.rows.length out di ai).2.1, hfin]

/-- Claim C4 (witness): idempotence at the concrete mixed-format table -
the second run reproduces the two-row transaction set. -/
theorem normalize_idempotent_witness :
    ∃ out2 summ2, parseAndCleanCsv exTOut = .ok (out2, summ2) ∧
      out2.header = exTOut.header ∧ out2.rows.Perm exTOut.rows ∧
      summ2.total_rows = exTOut.rows.length ∧ summ2.valid_rows = exTOut.rows.length :=
  normalize_idempotent_on_safe_output exT exTOut exTSumm (by decide) (by decide) (by decide)

end FinSense
